import Mathlib

/-!
Verification of the markdown optimizer (`markdown-optimizer/scripts/optimize_markdown.py`).

The Python code is line oriented: every transformation splits the document
string on newlines, matches single lines with anchored regular expressions,
and joins the result back.  We embed documents as `List Char`, lines as
`List Char` as well (the result of splitting on the newline character), and
translate each method of `MarkdownOptimizer` into a Lean function of the
same name (snake case kept where Lean allows).  The anchored regular
expressions of the source are small enough that their Python matching
semantics (greedy runs with the forced backtracking worked out by hand)
are expressed directly as functions on character lists.
-/

set_option maxRecDepth 20000

namespace MdOpt

/-- A single line of text: the Python `str` pieces of `content.split('\n')`. -/
abbrev Line := List Char

/-- Characters of a string literal, used to write concrete documents. -/
def l (s : String) : Line := s.toList

/-- The ASCII whitespace characters recognised by Python's `str.strip()`
and by the regex class `\s`: space, tab, newline, carriage return,
vertical tab and form feed. -/
def isPyWs (c : Char) : Bool :=
  c == ' ' || c == '\t' || c == '\n' || c == '\r' || c == '\x0b' || c == '\x0c'

/-- Python `str.strip()`: drop whitespace from both ends. -/
def pyStrip (s : Line) : Line :=
  ((s.dropWhile isPyWs).reverse.dropWhile isPyWs).reverse

/-- A line whose `strip()` is empty, i.e. Python's `not line.strip()`. -/
def isBlankLine (s : Line) : Bool := (pyStrip s).isEmpty

/-- The three dash characters making up a front matter delimiter. -/
def dash3 : Line := ['-', '-', '-']

/-- Python `content.split('\n')` on a character list. -/
def splitLines : List Char → List Line
  | [] => [[]]
  | c :: rest =>
    match splitLines rest with
    | [] => [[c]]
    | t :: ts => if c = '\n' then [] :: t :: ts else (c :: t) :: ts

/-- Python `'\n'.join(lines)` on line lists. -/
def joinLines : List Line → List Char
  | [] => []
  | [a] => a
  | a :: b :: rest => a ++ '\n' :: joinLines (b :: rest)

/-! ### 4.1 Heading extractor

`extract_headings` matches each raw line against `^(#{1,6})\s+(.+)$`.
Working out the greedy matching by hand: with `k` the length of the
leading run of `#` characters, the regex matches iff `1 ≤ k ≤ 6`, the
character right after the run is whitespace, and at least two characters
follow the run (`\s+` and `.+` each need one).  The second capture group
is the rest of the line with its leading whitespace removed, except that
when the rest is whitespace only, `\s+` backtracks and the group is the
final character of the line. -/

/-- The match of `^(#{1,6})\s+(.+)$` against one raw line: on success,
the heading level (the `#` count) and the second capture group. -/
def reMatchHeading (line : Line) : Option (Nat × Line) :=
  let k := (line.takeWhile (fun c => c == '#')).length
  let r := line.drop k
  if 1 ≤ k && k ≤ 6 && 2 ≤ r.length && isPyWs (r.headD 'x') then
    let t := r.dropWhile isPyWs
    some (k, if t.isEmpty then r.drop (r.length - 1) else t)
  else none

/-- One extracted heading record: level, trimmed text, line index. -/
structure Heading where
  level : Nat
  text : Line
  line : Nat
  deriving DecidableEq, Repr

/-- The loop body of `extract_headings`, carrying the line index. -/
def extractHeadingsAux (i : Nat) : List Line → List Heading
  | [] => []
  | line :: rest =>
    match reMatchHeading line with
    | some (k, g2) => ⟨k, pyStrip g2, i⟩ :: extractHeadingsAux (i + 1) rest
    | none => extractHeadingsAux (i + 1) rest

/-- `MarkdownOptimizer.extract_headings`. -/
def extractHeadings (lines : List Line) : List Heading :=
  extractHeadingsAux 0 lines

/-- The length of the leading `#` run of a line. -/
def hashCount (line : Line) : Nat :=
  (line.takeWhile (fun c => c == '#')).length

/-- The Boolean guard of the heading regex match. -/
def headingGuard (line : Line) : Bool :=
  1 ≤ hashCount line && hashCount line ≤ 6 &&
    2 ≤ (line.drop (hashCount line)).length &&
    isPyWs ((line.drop (hashCount line)).headD 'x')

/-- The second capture group produced on a successful heading match. -/
def g2Of (line : Line) : Line :=
  let r := line.drop (hashCount line)
  let t := r.dropWhile isPyWs
  if t.isEmpty then r.drop (r.length - 1) else t

/-! ### 4.2 Hierarchy normalizer -/

/-- The adjustment dictionary built by `normalize_heading_hierarchy`:
line index to new level, in heading order. -/
def computeAdjustments : List Heading → Nat → List (Nat × Nat)
  | [], _ => []
  | h :: rest, expected =>
    if expected + 1 < h.level then
      (h.line, expected + 1) :: computeAdjustments rest (expected + 1)
    else
      (h.line, h.level) :: computeAdjustments rest h.level

/-- Dictionary lookup on the association list (keys are distinct line indices). -/
def lookupNat (k : Nat) : List (Nat × Nat) → Option Nat
  | [] => none
  | (k2, v) :: rest => if k = k2 then some v else lookupNat k rest

/-- The per-line rewrite `'#' * new_level + ' ' + match.group(2)`, guarded by
re-matching the heading regex as in the source. -/
def rewriteLine (line : Line) (lv : Nat) : Line :=
  match reMatchHeading line with
  | some (_, g2) => List.replicate lv '#' ++ ' ' :: g2
  | none => line

/-- Applying the adjustment dictionary to the indexed line list. -/
def applyAdjAux (adj : List (Nat × Nat)) : Nat → List Line → List Line
  | _, [] => []
  | i, line :: rest =>
    (match lookupNat i adj with
     | some lv => rewriteLine line lv
     | none => line) :: applyAdjAux adj (i + 1) rest

/-- `MarkdownOptimizer.normalize_heading_hierarchy` on the line list. -/
def normalizeLines (lines : List Line) : List Line :=
  if (extractHeadings lines).isEmpty then lines
  else applyAdjAux (computeAdjustments (extractHeadings lines) 1) 0 lines

/-- `MarkdownOptimizer.normalize_heading_hierarchy` (string level). -/
def normalize_heading_hierarchy (content : List Char) : List Char :=
  if (extractHeadings (splitLines content)).isEmpty then content
  else joinLines (applyAdjAux
    (computeAdjustments (extractHeadings (splitLines content)) 1) 0 (splitLines content))

/-- The level reassignment of 4.2 on heading records (texts and line
indices carried along unchanged). -/
def normLevels : Nat → List Heading → List Heading
  | _, [] => []
  | expected, h :: rest =>
    if expected + 1 < h.level then
      ⟨expected + 1, h.text, h.line⟩ :: normLevels (expected + 1) rest
    else
      ⟨h.level, h.text, h.line⟩ :: normLevels h.level rest

/-- The heading-line shape of the specification, 4.1: 1 to 6 leading `#`
characters, then one or more whitespace characters, then a non-empty
remainder. -/
def claimHeadingLine (line : Line) : Prop :=
  ∃ (k : Nat) (mid rest : Line), 1 ≤ k ∧ k ≤ 6 ∧ mid ≠ [] ∧ rest ≠ [] ∧
    (∀ c ∈ mid, isPyWs c = true) ∧
    line = List.replicate k '#' ++ mid ++ rest

/-! ### Claim theorems on the hierarchy normalizer and heading extractor -/

/-! ### 4.3 Noise remover

`remove_noise` walks the lines once, tracking `in_frontmatter` (toggled by
the first two lines whose `strip()` is `---`), skipping horizontal-rule
lines outside front matter, and dropping a blank line whenever the last
emitted line is blank. -/

/-- The regex `^\s*---+\s*$`: optional whitespace, three or more dashes,
optional whitespace. -/
def isHrDash (line : Line) : Bool :=
  3 ≤ ((line.dropWhile isPyWs).takeWhile (fun c => c == '-')).length &&
    ((line.dropWhile isPyWs).drop
      ((line.dropWhile isPyWs).takeWhile (fun c => c == '-')).length).all isPyWs

/-- The regex `^\s*\*\*\*+\s*$`: optional whitespace, three or more stars,
optional whitespace. -/
def isHrStar (line : Line) : Bool :=
  3 ≤ ((line.dropWhile isPyWs).takeWhile (fun c => c == '*')).length &&
    ((line.dropWhile isPyWs).drop
      ((line.dropWhile isPyWs).takeWhile (fun c => c == '*')).length).all isPyWs

/-- Membership in either noise pattern of `remove_noise`. -/
def isNoise (line : Line) : Bool := isHrDash line || isHrStar line

/-- The loop of `remove_noise`, with the state made explicit:
`inFm` is `in_frontmatter`, `count` is `frontmatter_count`, `prevBlank`
records whether the last appended line was blank (false when nothing has
been appended yet). -/
def removeNoiseAux : Bool → Nat → Bool → List Line → List Line
  | _, _, _, [] => []
  | inFm, count, prevBlank, line :: rest =>
    if pyStrip line = dash3 ∧ count < 2 then
      line :: removeNoiseAux (!inFm) (count + 1) false rest
    else if !inFm && isNoise line then
      removeNoiseAux inFm (if pyStrip line = dash3 then count + 1 else count) prevBlank rest
    else if isBlankLine line && prevBlank then
      removeNoiseAux inFm (if pyStrip line = dash3 then count + 1 else count) prevBlank rest
    else
      line :: removeNoiseAux inFm (if pyStrip line = dash3 then count + 1 else count)
        (isBlankLine line) rest

/-- `MarkdownOptimizer.remove_noise` on the line list. -/
def removeNoiseLines (lines : List Line) : List Line :=
  removeNoiseAux false 0 false lines

/-- `MarkdownOptimizer.remove_noise` (string level). -/
def remove_noise (content : List Char) : List Char :=
  joinLines (removeNoiseLines (splitLines content))

/-- Reference annotation of the scan: pairs each line with whether it is
exempt from the noise patterns (a kept delimiter, or inside the toggled
front-matter region). -/
def annotateFm : Nat → Bool → List Line → List (Line × Bool)
  | _, _, [] => []
  | count, inFm, line :: rest =>
    if pyStrip line = dash3 then
      if count < 2 then (line, true) :: annotateFm (count + 1) (!inFm) rest
      else (line, inFm) :: annotateFm (count + 1) inFm rest
    else (line, inFm) :: annotateFm count inFm rest

/-- Collapse runs of blank lines against the last kept line. -/
def collapseBlanksAux : Bool → List Line → List Line
  | _, [] => []
  | prevBlank, line :: rest =>
    if isBlankLine line && prevBlank then collapseBlanksAux prevBlank rest
    else line :: collapseBlanksAux (isBlankLine line) rest

/-- The three-phase reference form of noise removal: annotate the
front-matter state, drop non-exempt noise lines, collapse blank runs. -/
def noiseSpecLines (lines : List Line) : List Line :=
  collapseBlanksAux false ((annotateFm 0 false lines).filterMap
    (fun p => if p.2 || !(isNoise p.1) then some p.1 else none))

/-! ### 4.5 Diagram-opportunity classifier -/

/-- Substring membership, Python `sub in s`. -/
def hasSub (sub : List Char) : List Char → Bool
  | [] => sub.isEmpty
  | c :: rest => sub.isPrefixOf (c :: rest) || hasSub sub rest

/-- The process-flow indicator phrases of `identify_diagram_opportunities`. -/
def process_indicators : List (List Char) :=
  [l "step 1", l "step 2", l "first", l "then", l "next", l "finally",
    l "process:", l "workflow:", l "procedure:"]

/-- The relationship indicator phrases. -/
def relationship_indicators : List (List Char) :=
  [l "depends on", l "related to", l "connects to", l "inherits from",
    l "composed of", l "hierarchy", l "relationship between"]

/-- The architecture indicator phrases. -/
def architecture_indicators : List (List Char) :=
  [l "architecture", l "component", l "system design", l "structure",
    l "module", l "layer", l "interface"]

/-- One suggested diagram. -/
inductive DiagType where
  | flowchart
  | graph
  | architecture
  deriving DecidableEq, Repr

/-- A diagram opportunity record: heading text, type, section start line. -/
structure DiagOpp where
  heading : Line
  type : DiagType
  line : Nat
  deriving DecidableEq, Repr

/-- Python slice `lines[a:b]`. -/
def sliceList (a b : Nat) (ls : List Line) : List Line :=
  (ls.drop a).take (b - a)

/-- The end of the section starting at `start` : the next heading's line,
or the number of lines. -/
def sectionEnd (headings : List Heading) (start : Nat) (total : Nat) : Nat :=
  match headings.find? (fun h2 => decide (start < h2.line)) with
  | some h2 => h2.line
  | none => total

/-- The lower-cased joined text of the section starting at `start`. -/
def sectionTextLower (lines : List Line) (headings : List Heading) (start : Nat) : List Char :=
  (joinLines (sliceList start (sectionEnd headings start lines.length) lines)).map Char.toLower

/-- The if/elif classification of one section in priority order. -/
def classifySection (s : List Char) : Option DiagType :=
  if process_indicators.any (fun ind => hasSub ind s) then some DiagType.flowchart
  else if relationship_indicators.any (fun ind => hasSub ind s) then some DiagType.graph
  else if architecture_indicators.any (fun ind => hasSub ind s) then some DiagType.architecture
  else none

/-- `MarkdownOptimizer.identify_diagram_opportunities`. -/
def identifyDiagramOpportunities (lines : List Line) : List DiagOpp :=
  (extractHeadings lines).filterMap (fun h =>
    (classifySection (sectionTextLower lines (extractHeadings lines) h.line)).map
      (fun t => ⟨h.text, t, h.line⟩))

/-! ### 4.4 Concept extractor

`extract_key_concepts` removes markdown punctuation, collects the matches
of the CamelCase regex and of the acronym regex, counts them with a
`Counter`, and returns `most_common(10)`.  `re.findall` scans left to
right without overlap; both patterns are bracketed by word boundaries, and
since every character inside a candidate match is a word character, a
failed boundary at the end of the greedy match cannot be repaired by
backtracking; the scanners below implement exactly that.  `most_common` is
a stable descending sort of the counter's items, whose insertion order is
the order of first occurrence in the match list. -/

/-- The characters removed before tokenising. -/
def isMdPunct (c : Char) : Bool :=
  c == '#' || c == '*' || c == Char.ofNat 96 || c == '_' ||
    c == '[' || c == ']' || c == '(' || c == ')'

/-- `re.sub` of the punctuation class with the empty string. -/
def stripMdChars (s : List Char) : List Char := s.filter (fun c => !(isMdPunct c))

/-- The regex word characters `\w` (ASCII fragment). -/
def isWordChar (c : Char) : Bool := c.isAlpha || c.isDigit || c == '_'

/-- A word boundary `\b` holds after a match iff the next character is
missing or not a word character. -/
def endBoundary : List Char → Bool
  | [] => true
  | d :: _ => !(isWordChar d)

/-- The greedy parse of `[A-Z][a-z]+(?:[A-Z][a-z]+)*` from the start of
the input: the matched token and the rest. -/
def camelSegs : Nat → List Char → (List Char × List Char)
  | 0, s => ([], s)
  | fuel + 1, s =>
    match s with
    | u :: c :: rest =>
      if u.isUpper && c.isLower then
        ((fun p => (u :: ((c :: rest).takeWhile Char.isLower ++ p.1), p.2))
          (camelSegs fuel ((c :: rest).drop ((c :: rest).takeWhile Char.isLower).length)))
      else ([], s)
    | _ => ([], s)

/-- `re.findall(r'\b[A-Z][a-z]+(?:[A-Z][a-z]+)*\b', text)` with match
start positions; `prevW` tells whether the previous character was a word
character (no boundary). -/
def scanCamel : Nat → Bool → Nat → List Char → List (Nat × List Char)
  | 0, _, _, _ => []
  | _ + 1, _, _, [] => []
  | fuel + 1, prevW, pos, c :: rest =>
    if !prevW && c.isUpper then
      (fun p =>
        if !p.1.isEmpty && endBoundary p.2 then
          (pos, p.1) :: scanCamel fuel true (pos + p.1.length) p.2
        else scanCamel fuel (isWordChar c) (pos + 1) rest)
        (camelSegs (c :: rest).length (c :: rest))
    else scanCamel fuel (isWordChar c) (pos + 1) rest

/-- `re.findall(r'\b[A-Z]{2,}\b', text)` with match start positions. -/
def scanAcr : Nat → Bool → Nat → List Char → List (Nat × List Char)
  | 0, _, _, _ => []
  | _ + 1, _, _, [] => []
  | fuel + 1, prevW, pos, c :: rest =>
    if !prevW && c.isUpper then
      if 2 ≤ ((c :: rest).takeWhile Char.isUpper).length
          && endBoundary ((c :: rest).drop ((c :: rest).takeWhile Char.isUpper).length) then
        (pos, (c :: rest).takeWhile Char.isUpper)
          :: scanAcr fuel true (pos + ((c :: rest).takeWhile Char.isUpper).length)
              ((c :: rest).drop ((c :: rest).takeWhile Char.isUpper).length)
      else scanAcr fuel (isWordChar c) (pos + 1) rest
    else scanAcr fuel (isWordChar c) (pos + 1) rest

/-- The concatenated match list: all CamelCase matches in text order, then
all acronym matches in text order (`words = findall(camel) + findall(acr)`). -/
def extractWords (content : List Char) : List (List Char) :=
  ((scanCamel ((stripMdChars content).length + 1) false 0 (stripMdChars content)).map
      Prod.snd)
    ++ ((scanAcr ((stripMdChars content).length + 1) false 0 (stripMdChars content)).map
      Prod.snd)

/-- The counter's key order: distinct tokens in first-occurrence order. -/
def dedupFirst (seen : List (List Char)) : List (List Char) → List (List Char)
  | [] => []
  | x :: xs => if x ∈ seen then dedupFirst seen xs else x :: dedupFirst (x :: seen) xs

/-- Stable insertion for a descending sort by count: an element moves
before exactly the strictly smaller counts. -/
def insertDesc (cnt : List Char → Nat) (x : List Char) :
    List (List Char) → List (List Char)
  | [] => [x]
  | y :: ys => if cnt y ≤ cnt x then x :: y :: ys else y :: insertDesc cnt x ys

/-- Stable descending sort by count (the order produced by
`Counter.most_common`). -/
def sortDesc (cnt : List Char → Nat) : List (List Char) → List (List Char)
  | [] => []
  | x :: xs => insertDesc cnt x (sortDesc cnt xs)

/-- `MarkdownOptimizer.extract_key_concepts`. -/
def extract_key_concepts (content : List Char) : List (List Char) :=
  (sortDesc (fun t => (extractWords content).count t)
    (dedupFirst [] (extractWords content))).take 10

/-- Index of the first occurrence of a token in a token list. -/
def firstPos (t : List Char) : List (List Char) → Nat
  | [] => 0
  | x :: xs => if x = t then 0 else firstPos t xs + 1

/-! ### 4.6 Front-matter synthesizer and 4.7 pipeline -/

/-- The anchor derivation of `generate_toc`: lower-case, drop characters
that are neither word characters, whitespace nor hyphens, then collapse
every run of whitespace/hyphens to a single hyphen. -/
def collapseHyphenRuns : Bool → List Char → List Char
  | _, [] => []
  | prevH, c :: rest =>
    if isPyWs c || c == '-' then
      (if prevH then collapseHyphenRuns true rest else '-' :: collapseHyphenRuns true rest)
    else c :: collapseHyphenRuns false rest

/-- The anchor string of one heading text. -/
def anchorOf (text : Line) : Line :=
  collapseHyphenRuns false ((text.map Char.toLower).filter
    (fun c => isWordChar c || isPyWs c || c == '-'))

/-- One table-of-contents entry. -/
structure TocEntry where
  level : Nat
  text : Line
  anchor : Line
  deriving DecidableEq, Repr

/-- `MarkdownOptimizer.generate_toc`. -/
def generate_toc (lines : List Line) : List TocEntry :=
  (extractHeadings lines).map (fun h => ⟨h.level, h.text, anchorOf h.text⟩)

/-- The decimal digit character of `d < 10`. -/
def digitChar (d : Nat) : Char := Char.ofNat (48 + d)

/-- Decimal digits of a natural number, most significant first. -/
def natToCharsAux : Nat → Nat → List Char
  | 0, _ => []
  | fuel + 1, n =>
    if n < 10 then [digitChar n]
    else natToCharsAux fuel (n / 10) ++ [digitChar (n % 10)]

/-- Python `str(n)` for a natural number. -/
def natToChars (n : Nat) : List Char := natToCharsAux (n + 1) n

/-- `pathlib.Path(p).stem`: the final path component with its extension
removed (a dot that is first or last in the name is not an extension). -/
def pyStem (p : List Char) : List Char :=
  (fun nm =>
    match nm.reverse.findIdx? (fun c => c == '.') with
    | some j =>
      if 0 < nm.length - 1 - j ∧ nm.length - 1 - j < nm.length - 1 then
        nm.take (nm.length - 1 - j)
      else nm
    | none => nm)
    ((p.reverse.takeWhile (fun c => !(c == '/'))).reverse)

/-- The YAML name of one diagram type. -/
def typeName : DiagType → List Char
  | DiagType.flowchart => l "flowchart"
  | DiagType.graph => l "graph"
  | DiagType.architecture => l "architecture"

/-- `MarkdownOptimizer.generate_frontmatter`, parameterised by the current
content and the source path used as title fallback. -/
def generate_frontmatter (content sourcePath : List Char) : List Line :=
  [l "---",
    l "title: \"" ++ (match (extractHeadings (splitLines content)).find?
        (fun h => h.level == 1) with
      | some h => h.text
      | none => if sourcePath.isEmpty then l "Untitled" else pyStem sourcePath) ++ l "\"",
    l "tokens: " ++ natToChars (content.length / 4),
    l "optimized_for_llm: true"]
  ++ (if (extract_key_concepts content).isEmpty then []
      else l "concepts:" ::
        ((extract_key_concepts content).take 5).map (fun c => l "  - " ++ c))
  ++ (if (generate_toc (splitLines content)).isEmpty then []
      else l "toc:" :: (generate_toc (splitLines content)).map (fun t =>
        List.replicate ((t.level - 1) * 2) ' ' ++ l "- " ++ t.text))
  ++ (if (identifyDiagramOpportunities (splitLines content)).isEmpty then []
      else l "suggested_diagrams:" ::
        ((identifyDiagramOpportunities (splitLines content)).map (fun d =>
          [l "  - section: \"" ++ d.heading ++ l "\"",
           l "    type: " ++ typeName d.type])).flatten)
  ++ [l "---"]

/-- First occurrence split: `some (before, after)` around the first
occurrence of `sep`, scanning left to right. -/
def findOcc (sep : List Char) : List Char → Option (List Char × List Char)
  | [] => none
  | c :: rest =>
    if sep.isPrefixOf (c :: rest) then some ([], (c :: rest).drop sep.length)
    else (findOcc sep rest).map (fun q => (c :: q.1, q.2))

/-- Python `s.split(sep, maxsplit)` for a non-empty separator. -/
def splitSub : Nat → List Char → List Char → List (List Char)
  | 0, _, s => [s]
  | n + 1, sep, s =>
    match findOcc sep s with
    | none => [s]
    | some q => q.1 :: splitSub n sep q.2

/-- Step 3 of `optimize`: if the cleaned text starts with `---`, split on
the substring `---` at most twice and keep the third part, with leading
newlines stripped. -/
def stripExistingFm (content : List Char) : List Char :=
  if dash3.isPrefixOf content then
    (fun parts =>
      if 3 ≤ parts.length then (parts.getD 2 []).dropWhile (fun c => c == '\n')
      else content)
      (splitSub 2 dash3 content)
  else content

/-- The body computed by steps 1 to 3 of `MarkdownOptimizer.optimize`. -/
def pipelineBody (content : List Char) : List Char :=
  stripExistingFm (remove_noise (normalize_heading_hierarchy content))

/-- `MarkdownOptimizer.optimize`. -/
def optimize (content sourcePath : List Char) : List Char :=
  joinLines (generate_frontmatter (pipelineBody content) sourcePath)
    ++ l "\n\n" ++ pipelineBody content

/-! ### Proofs -/

theorem splitLines_ne_nil (s : List Char) : splitLines s ≠ [] := by
  cases s with
  | nil => simp [splitLines]
  | cons c rest =>
    simp only [splitLines]
    cases splitLines rest with
    | nil => simp
    | cons t ts =>
      by_cases h : c = '\n' <;> simp [h]

theorem joinLines_cons_cons (a t : Line) (ts : List Line) :
    joinLines ((a ++ t) :: ts) = a ++ joinLines (t :: ts) := by
  cases ts with
  | nil => simp [joinLines]
  | cons u us => simp [joinLines]

theorem joinLines_splitLines (s : List Char) : joinLines (splitLines s) = s := by
  induction s with
  | nil => simp [splitLines, joinLines]
  | cons c rest ih =>
    simp only [splitLines]
    rcases hs : splitLines rest with _ | ⟨t, ts⟩
    · exact absurd hs (splitLines_ne_nil rest)
    · rw [hs] at ih
      by_cases h : c = '\n'
      · subst h
        simpa [joinLines] using ih
      · simp only [h, if_false]
        have : joinLines ((c :: t) :: ts) = [c] ++ joinLines (t :: ts) := by
          simpa using joinLines_cons_cons [c] t ts
        simpa [this] using ih

theorem splitLines_no_newline (s : List Char) :
    ∀ t ∈ splitLines s, '\n' ∉ t := by
  induction s with
  | nil => simp [splitLines]
  | cons c rest ih =>
    simp only [splitLines]
    rcases hs : splitLines rest with _ | ⟨t, ts⟩
    · exact absurd hs (splitLines_ne_nil rest)
    · rw [hs] at ih
      by_cases h : c = '\n'
      · subst h
        intro u hu
        dsimp only at hu
        rw [if_pos rfl] at hu
        rcases List.mem_cons.mp hu with hu | hu
        · simp [hu]
        · exact ih u hu
      · intro u hu
        dsimp only at hu
        rw [if_neg h] at hu
        rcases List.mem_cons.mp hu with hu | hu
        · subst hu
          intro hc
          rcases List.mem_cons.mp hc with hc | hc
          · exact h hc.symm
          · exact ih t (by simp) hc
        · exact ih u (by simp [hu])

theorem splitLines_single (t : Line) (h : '\n' ∉ t) : splitLines t = [t] := by
  induction t with
  | nil => simp [splitLines]
  | cons c rest ih =>
    have hc : c ≠ '\n' := fun e => h (by simp [e])
    have hrest : '\n' ∉ rest := fun e => h (by simp [e])
    simp [splitLines, ih hrest, hc]

theorem splitLines_append_newline (a : Line) (s : List Char) (h : '\n' ∉ a) :
    splitLines (a ++ '\n' :: s) = a :: splitLines s := by
  induction a with
  | nil =>
    simp only [List.nil_append, splitLines]
    rcases hs : splitLines s with _ | ⟨t, ts⟩
    · exact absurd hs (splitLines_ne_nil s)
    · simp
  | cons c rest ih =>
    have hc : c ≠ '\n' := fun e => h (by simp [e])
    have hrest : '\n' ∉ rest := fun e => h (by simp [e])
    have h1 : splitLines (c :: (rest ++ '\n' :: s)) =
        match splitLines (rest ++ '\n' :: s) with
        | [] => [[c]]
        | t :: ts => if c = '\n' then [] :: t :: ts else (c :: t) :: ts := rfl
    rw [List.cons_append, h1, ih hrest]
    simp [hc]

theorem splitLines_joinLines (ls : List Line) (hne : ls ≠ [])
    (h : ∀ t ∈ ls, '\n' ∉ t) : splitLines (joinLines ls) = ls := by
  induction ls with
  | nil => exact absurd rfl hne
  | cons a rest ih =>
    cases rest with
    | nil =>
      simpa [joinLines] using splitLines_single a (h a (by simp))
    | cons b bs =>
      have ha : '\n' ∉ a := h a (by simp)
      have hrest : ∀ t ∈ b :: bs, '\n' ∉ t := fun t ht => h t (by simp [ht])
      simp only [joinLines]
      rw [splitLines_append_newline a _ ha, ih (by simp) hrest]

theorem dropWhile_head_false {p : Char → Bool} {s : Line} {c : Char} {cs : Line}
    (h : s.dropWhile p = c :: cs) : p c = false := by
  induction s with
  | nil => simp [List.dropWhile] at h
  | cons a as ih =>
    by_cases ha : p a
    · exact ih (by simpa [List.dropWhile, ha] using h)
    · rw [List.dropWhile_cons_of_neg ha] at h
      cases h
      simpa using ha

theorem dropWhile_idem (p : Char → Bool) (s : Line) :
    (s.dropWhile p).dropWhile p = s.dropWhile p := by
  rcases h : s.dropWhile p with _ | ⟨c, cs⟩
  · simp
  · rw [List.dropWhile_cons_of_neg (by simp [dropWhile_head_false h])]

theorem dropWhile_eq_nil_all {p : Char → Bool} {s : Line}
    (h : s.dropWhile p = []) : ∀ c ∈ s, p c = true := by
  induction s with
  | nil => simp
  | cons a as ih =>
    by_cases ha : p a
    · rw [List.dropWhile_cons_of_pos ha] at h
      intro c hc
      rcases List.mem_cons.mp hc with hc | hc
      · simpa [hc]
      · exact ih h c hc
    · rw [List.dropWhile_cons_of_neg ha] at h
      cases h

theorem drop_length_sub_one {s : Line} (h : s ≠ []) :
    ∃ c ∈ s, s.drop (s.length - 1) = [c] := by
  induction s with
  | nil => exact absurd rfl h
  | cons a as ih =>
    cases as with
    | nil => exact ⟨a, by simp, by simp⟩
    | cons b bs =>
      rcases ih (by simp) with ⟨c, hc, hdrop⟩
      refine ⟨c, by simp [List.mem_cons.mp hc], ?_⟩
      simpa [List.length_cons] using hdrop

theorem pyWs_ne_hash {c : Char} (h : isPyWs c = true) : (c == '#') = false := by
  by_cases hc : c = '#'
  · subst hc
    exact absurd h (by decide)
  · simp [hc]

theorem reMatchHeading_eq (line : Line) :
    reMatchHeading line =
      if headingGuard line then some (hashCount line, g2Of line) else none := rfl

/-- Everything the success of the heading regex yields: the level bounds,
the shape of the second capture group, and its relation to the raw line. -/
theorem reMatchHeading_some {line : Line} {k : Nat} {g2 : Line}
    (h : reMatchHeading line = some (k, g2)) :
    k = hashCount line ∧ 1 ≤ k ∧ k ≤ 6 ∧ 2 ≤ (line.drop k).length ∧
      isPyWs ((line.drop k).headD 'x') = true ∧ g2 ≠ [] ∧
      ((g2 = (line.drop k).dropWhile isPyWs ∧ g2.dropWhile isPyWs = g2) ∨
        ((∃ c, c ∈ line.drop k ∧ isPyWs c = true ∧ g2 = [c]) ∧
          (line.drop k).dropWhile isPyWs = [])) := by
  rw [reMatchHeading_eq] at h
  by_cases hcond : headingGuard line = true
  · rw [if_pos hcond] at h
    have h' := Option.some.inj h
    have hk : hashCount line = k := congrArg Prod.fst h'
    have hg : g2Of line = g2 := congrArg Prod.snd h'
    unfold headingGuard at hcond
    simp only [Bool.and_eq_true, decide_eq_true_eq] at hcond
    obtain ⟨⟨⟨h1, h6⟩, hlen⟩, hws⟩ := hcond
    rw [hk] at h1 h6 hlen hws
    have hg' : (if ((line.drop k).dropWhile isPyWs).isEmpty then
        (line.drop k).drop ((line.drop k).length - 1)
        else (line.drop k).dropWhile isPyWs) = g2 := by
      rw [← hg]
      unfold g2Of
      rw [hk]
    refine ⟨hk.symm, h1, h6, hlen, hws, ?_, ?_⟩
    · rw [← hg']
      by_cases he : ((line.drop k).dropWhile isPyWs).isEmpty
      · rw [if_pos he]
        have hne : line.drop k ≠ [] := by
          intro e
          rw [e] at hlen
          simp at hlen
        rcases drop_length_sub_one hne with ⟨c, _, hd⟩
        rw [hd]
        simp
      · rw [if_neg he]
        simpa [List.isEmpty_iff] using he
    · rw [← hg']
      by_cases he : ((line.drop k).dropWhile isPyWs).isEmpty
      · rw [if_pos he]
        have hne : line.drop k ≠ [] := by
          intro e
          rw [e] at hlen
          simp at hlen
        rcases drop_length_sub_one hne with ⟨c, hc, hd⟩
        have hall := dropWhile_eq_nil_all (List.isEmpty_iff.mp he)
        exact Or.inr ⟨⟨c, hc, hall c hc, hd⟩, List.isEmpty_iff.mp he⟩
      · rw [if_neg he]
        exact Or.inl ⟨rfl, dropWhile_idem isPyWs _⟩
  · rw [if_neg hcond] at h
    cases h

theorem reMatchHeading_isSome_iff (line : Line) :
    (reMatchHeading line).isSome = true ↔ headingGuard line = true := by
  rw [reMatchHeading_eq]
  by_cases hcond : headingGuard line = true
  · simp [hcond]
  · simp [hcond]

theorem take_len_takeWhile (p : Char → Bool) (s : Line) :
    s.take (s.takeWhile p).length = s.takeWhile p := by
  induction s with
  | nil => simp
  | cons a as ih =>
    by_cases ha : p a
    · simp [List.takeWhile_cons, ha, ih]
    · simp [List.takeWhile_cons, ha]

theorem takeWhile_hash_eq_replicate (s : Line) :
    s.takeWhile (fun c => c == '#') = List.replicate (hashCount s) '#' := by
  apply List.eq_replicate_of_mem
  intro c hc
  have := List.mem_takeWhile_imp hc
  simpa using this

theorem line_eq_hashes_append (line : Line) :
    line = List.replicate (hashCount line) '#' ++ line.drop (hashCount line) := by
  conv_lhs => rw [← List.take_append_drop (hashCount line) line]
  rw [show line.take (hashCount line) = List.replicate (hashCount line) '#' from ?_]
  rw [← takeWhile_hash_eq_replicate]
  exact take_len_takeWhile _ line

theorem takeWhile_hash_replicate_append (k : Nat) (s : Line)
    (h : ∀ c ∈ s.take 1, (c == '#') = false) :
    (List.replicate k '#' ++ s).takeWhile (fun c => c == '#') = List.replicate k '#' := by
  induction k with
  | zero =>
    cases s with
    | nil => simp
    | cons a as =>
      have := h a (by simp)
      simp [List.takeWhile_cons, this]
  | succ n ih => simp [List.replicate_succ, List.takeWhile_cons, ih]

/-- Rebuilding a heading line from a level in `1..6` and a second capture
group reproduces the same capture group on re-extraction. -/
theorem reMatchHeading_rebuild {line : Line} {k : Nat} {g2 : Line} (lv : Nat)
    (h : reMatchHeading line = some (k, g2)) (h1 : 1 ≤ lv) (h6 : lv ≤ 6) :
    reMatchHeading (List.replicate lv '#' ++ ' ' :: g2) = some (lv, g2) := by
  obtain ⟨_, _, _, _, _, hne, hshape⟩ := reMatchHeading_some h
  have htw : ((List.replicate lv '#' ++ ' ' :: g2).takeWhile (fun c => c == '#'))
      = List.replicate lv '#' :=
    takeWhile_hash_replicate_append lv (' ' :: g2) (by intro c hc; simp at hc; simp [hc])
  have hhc : hashCount (List.replicate lv '#' ++ ' ' :: g2) = lv := by
    unfold hashCount
    rw [htw]
    simp
  have hdrop : (List.replicate lv '#' ++ ' ' :: g2).drop lv = ' ' :: g2 := by
    have h0 := List.drop_left (List.replicate lv '#') (' ' :: g2)
    rwa [List.length_replicate] at h0
  have hlen1 : 1 ≤ g2.length := List.length_pos.mpr hne
  have hguard : headingGuard (List.replicate lv '#' ++ ' ' :: g2) = true := by
    unfold headingGuard
    rw [hhc, hdrop]
    simp [h1, h6, hlen1, isPyWs]
  rw [reMatchHeading_eq, if_pos hguard, hhc]
  have hdw : (' ' :: g2).dropWhile isPyWs = g2.dropWhile isPyWs := by
    rw [List.dropWhile_cons_of_pos (by simp [isPyWs])]
  have hg2of : g2Of (List.replicate lv '#' ++ ' ' :: g2) = g2 := by
    unfold g2Of
    rw [hhc, hdrop]
    show (if ((' ' :: g2).dropWhile isPyWs).isEmpty then
        (' ' :: g2).drop ((' ' :: g2).length - 1)
        else (' ' :: g2).dropWhile isPyWs) = g2
    rw [hdw]
    rcases hshape with ⟨_, hfix⟩ | ⟨⟨c, _, hc, hg2⟩, _⟩
    · rw [hfix]
      rw [if_neg (by simpa [List.isEmpty_iff] using hne)]
    · subst hg2
      rw [List.dropWhile_cons_of_pos hc]
      simp
  rw [hg2of]

theorem extractHeadingsAux_mem_bounds {i : Nat} {ls : List Line} {hd : Heading}
    (h : hd ∈ extractHeadingsAux i ls) : i ≤ hd.line ∧ hd.line < i + ls.length := by
  induction ls generalizing i with
  | nil => simp [extractHeadingsAux] at h
  | cons line rest ih =>
    unfold extractHeadingsAux at h
    rcases hm : reMatchHeading line with _ | ⟨k, g2⟩
    · rw [hm] at h
      have h2 := ih h
      have h3 : (line :: rest).length = rest.length + 1 := rfl
      omega
    · rw [hm] at h
      rcases List.mem_cons.mp h with h | h
      · subst h
        dsimp only
        have h3 : (line :: rest).length = rest.length + 1 := rfl
        omega
      · have h2 := ih h
        have h3 : (line :: rest).length = rest.length + 1 := rfl
        omega

theorem extractHeadingsAux_pairwise (i : Nat) (ls : List Line) :
    (extractHeadingsAux i ls).Pairwise (fun a b => a.line < b.line) := by
  induction ls generalizing i with
  | nil => simp [extractHeadingsAux]
  | cons line rest ih =>
    unfold extractHeadingsAux
    rcases hm : reMatchHeading line with _ | ⟨k, g2⟩
    · exact ih (i + 1)
    · refine List.Pairwise.cons ?_ (ih (i + 1))
      intro b hb
      have := (extractHeadingsAux_mem_bounds hb).1
      simpa using Nat.lt_of_lt_of_le (Nat.lt_succ_self i) this

theorem extractHeadingsAux_mem_reMatch {i : Nat} {ls : List Line} {hd : Heading}
    (h : hd ∈ extractHeadingsAux i ls) :
    ∃ g2, reMatchHeading (ls.getD (hd.line - i) []) = some (hd.level, g2) ∧
      hd.text = pyStrip g2 := by
  induction ls generalizing i with
  | nil => simp [extractHeadingsAux] at h
  | cons line rest ih =>
    unfold extractHeadingsAux at h
    rcases hm : reMatchHeading line with _ | ⟨k, g2⟩
    · rw [hm] at h
      have hb := (extractHeadingsAux_mem_bounds h).1
      rcases ih h with ⟨g, hg, ht⟩
      refine ⟨g, ?_, ht⟩
      have : hd.line - i = (hd.line - (i + 1)) + 1 := by omega
      rw [this]
      simpa using hg
    · rw [hm] at h
      rcases List.mem_cons.mp h with h | h
      · subst h
        exact ⟨g2, by simpa using hm, rfl⟩
      · have hb := (extractHeadingsAux_mem_bounds h).1
        rcases ih h with ⟨g, hg, ht⟩
        refine ⟨g, ?_, ht⟩
        have : hd.line - i = (hd.line - (i + 1)) + 1 := by omega
        rw [this]
        simpa using hg

theorem extractHeadings_level_wf {lines : List Line} {hd : Heading}
    (h : hd ∈ extractHeadings lines) : 1 ≤ hd.level ∧ hd.level ≤ 6 := by
  rcases extractHeadingsAux_mem_reMatch h with ⟨g2, hg, _⟩
  have := reMatchHeading_some hg
  exact ⟨this.2.1, this.2.2.1⟩

theorem lookupNat_mem {k : Nat} {v : Nat} {adj : List (Nat × Nat)}
    (h : lookupNat k adj = some v) : (k, v) ∈ adj := by
  induction adj with
  | nil => simp [lookupNat] at h
  | cons p rest ih =>
    obtain ⟨k2, v2⟩ := p
    unfold lookupNat at h
    by_cases hk : k = k2
    · rw [if_pos hk] at h
      cases h
      simp [hk]
    · rw [if_neg hk] at h
      exact List.mem_cons_of_mem _ (ih h)

theorem computeAdjustments_wf {hs : List Heading} {e : Nat}
    (hwf : ∀ h ∈ hs, 1 ≤ h.level ∧ h.level ≤ 6) :
    ∀ p ∈ computeAdjustments hs e, 1 ≤ p.2 ∧ p.2 ≤ 6 := by
  induction hs generalizing e with
  | nil => simp [computeAdjustments]
  | cons h rest ih =>
    intro p hp
    unfold computeAdjustments at hp
    have hwfh := hwf h (by simp)
    have hwfr : ∀ h2 ∈ rest, 1 ≤ h2.level ∧ h2.level ≤ 6 :=
      fun h2 hh2 => hwf h2 (by simp [hh2])
    by_cases hc : e + 1 < h.level
    · rw [if_pos hc] at hp
      rcases List.mem_cons.mp hp with hp | hp
      · subst hp
        constructor
        · simp
        · simp only
          omega
      · exact ih hwfr p hp
    · rw [if_neg hc] at hp
      rcases List.mem_cons.mp hp with hp | hp
      · subst hp
        exact ⟨hwfh.1, hwfh.2⟩
      · exact ih hwfr p hp

theorem map_lookup_eq_normLevels (hs : List Heading) (e : Nat)
    (hp : hs.Pairwise (fun a b => a.line < b.line)) :
    hs.map (fun h =>
      (⟨(lookupNat h.line (computeAdjustments hs e)).getD h.level, h.text, h.line⟩ : Heading))
      = normLevels e hs := by
  induction hs generalizing e with
  | nil => simp [computeAdjustments, normLevels]
  | cons h rest ih =>
    have hp1 : ∀ b ∈ rest, h.line < b.line := fun b hb => (List.pairwise_cons.mp hp).1 b hb
    have hp2 := (List.pairwise_cons.mp hp).2
    by_cases hc : e + 1 < h.level
    · unfold computeAdjustments normLevels
      rw [if_pos hc, if_pos hc]
      simp only [List.map_cons, List.cons.injEq]
      constructor
      · simp [lookupNat]
      · rw [← ih (e + 1) hp2]
        apply List.map_congr_left
        intro b hb
        have hne : b.line ≠ h.line := Nat.ne_of_gt (hp1 b hb)
        simp [lookupNat, hne]
    · unfold computeAdjustments normLevels
      rw [if_neg hc, if_neg hc]
      simp only [List.map_cons, List.cons.injEq]
      constructor
      · simp [lookupNat]
      · rw [← ih h.level hp2]
        apply List.map_congr_left
        intro b hb
        have hne : b.line ≠ h.line := Nat.ne_of_gt (hp1 b hb)
        simp [lookupNat, hne]

theorem extractHeadingsAux_applyAdjAux {adj : List (Nat × Nat)}
    (hwf : ∀ p ∈ adj, 1 ≤ p.2 ∧ p.2 ≤ 6) :
    ∀ (ls : List Line) (j : Nat),
      extractHeadingsAux j (applyAdjAux adj j ls) =
        (extractHeadingsAux j ls).map (fun h =>
          ⟨(lookupNat h.line adj).getD h.level, h.text, h.line⟩) := by
  intro ls
  induction ls with
  | nil => intro j; simp [applyAdjAux, extractHeadingsAux]
  | cons line rest ih =>
    intro j
    rcases hlk : lookupNat j adj with _ | lv
    · have happ : applyAdjAux adj j (line :: rest) = line :: applyAdjAux adj (j + 1) rest := by
        show (match lookupNat j adj with
          | some lv => rewriteLine line lv
          | none => line) :: applyAdjAux adj (j + 1) rest
          = line :: applyAdjAux adj (j + 1) rest
        rw [hlk]
      rw [happ]
      unfold extractHeadingsAux
      rcases hm : reMatchHeading line with _ | ⟨k, g2⟩
      · simp only [hm]
        exact ih (j + 1)
      · simp only [hm, List.map_cons, hlk, Option.getD_none]
        rw [ih (j + 1)]
    · have hlv := hwf _ (lookupNat_mem hlk)
      have happ : applyAdjAux adj j (line :: rest)
          = rewriteLine line lv :: applyAdjAux adj (j + 1) rest := by
        show (match lookupNat j adj with
          | some lv => rewriteLine line lv
          | none => line) :: applyAdjAux adj (j + 1) rest
          = rewriteLine line lv :: applyAdjAux adj (j + 1) rest
        rw [hlk]
      rw [happ]
      rcases hm : reMatchHeading line with _ | ⟨k, g2⟩
      · have hrw : rewriteLine line lv = line := by
          unfold rewriteLine
          rw [hm]
        rw [hrw]
        unfold extractHeadingsAux
        simp only [hm]
        exact ih (j + 1)
      · have hrw : rewriteLine line lv = List.replicate lv '#' ++ ' ' :: g2 := by
          unfold rewriteLine
          rw [hm]
        rw [hrw]
        unfold extractHeadingsAux
        simp only [hm, reMatchHeading_rebuild lv hm hlv.1 hlv.2,
          List.map_cons, hlk, Option.getD_some]
        rw [ih (j + 1)]

theorem extract_normalizeLines (lines : List Line) :
    extractHeadings (normalizeLines lines) = normLevels 1 (extractHeadings lines) := by
  unfold normalizeLines
  by_cases he : (extractHeadings lines).isEmpty
  · rw [if_pos he]
    rw [List.isEmpty_iff.mp he]
    simp [normLevels]
  · rw [if_neg he]
    have hwf : ∀ p ∈ computeAdjustments (extractHeadings lines) 1, 1 ≤ p.2 ∧ p.2 ≤ 6 :=
      computeAdjustments_wf (fun h hh => extractHeadings_level_wf hh)
    exact (extractHeadingsAux_applyAdjAux hwf lines 0).trans
      (map_lookup_eq_normLevels _ 1 (extractHeadingsAux_pairwise 0 lines))

theorem applyAdjAux_length (adj : List (Nat × Nat)) :
    ∀ (ls : List Line) (j : Nat), (applyAdjAux adj j ls).length = ls.length := by
  intro ls
  induction ls with
  | nil => intro j; simp [applyAdjAux]
  | cons line rest ih => intro j; simp [applyAdjAux, ih (j + 1)]

theorem applyAdjAux_no_newline {adj : List (Nat × Nat)} {ls : List Line}
    (h : ∀ t ∈ ls, '\n' ∉ t) :
    ∀ (j : Nat) (t : Line), t ∈ applyAdjAux adj j ls → '\n' ∉ t := by
  induction ls with
  | nil => intro j t ht; simp [applyAdjAux] at ht
  | cons line rest ih =>
    intro j t ht
    unfold applyAdjAux at ht
    have hline := h line (by simp)
    have hrest : ∀ t2 ∈ rest, '\n' ∉ t2 := fun t2 ht2 => h t2 (by simp [ht2])
    rcases List.mem_cons.mp ht with ht | ht
    · subst ht
      rcases hlk : lookupNat j adj with _ | lv
      · simpa [hlk] using hline
      · simp only [hlk]
        unfold rewriteLine
        rcases hm : reMatchHeading line with _ | ⟨k, g2⟩
        · exact hline
        · intro hmem
          rcases List.mem_append.mp hmem with hmem | hmem
          · have := List.eq_of_mem_replicate hmem
            cases this
          · rcases List.mem_cons.mp hmem with hmem | hmem
            · cases hmem
            · obtain ⟨_, _, _, _, _, _, hshape⟩ := reMatchHeading_some hm
              rcases hshape with ⟨hg, _⟩ | ⟨⟨c, hc, _, hg⟩, _⟩
              · subst hg
                have h1 : '\n' ∈ line.drop k :=
                  (List.dropWhile_sublist isPyWs).mem hmem
                exact hline (List.drop_subset k line h1)
              · subst hg
                rcases List.mem_singleton.mp hmem with rfl
                exact hline (List.drop_subset k line hc)
    · exact ih hrest (j + 1) t ht

theorem splitLines_normalize (content : List Char) :
    splitLines (normalize_heading_hierarchy content) = normalizeLines (splitLines content) := by
  unfold normalize_heading_hierarchy normalizeLines
  by_cases he : (extractHeadings (splitLines content)).isEmpty
  · rw [if_pos he, if_pos he]
  · rw [if_neg he, if_neg he]
    apply splitLines_joinLines
    · intro hnil
      have hlen := applyAdjAux_length
        (computeAdjustments (extractHeadings (splitLines content)) 1) (splitLines content) 0
      rw [hnil] at hlen
      exact splitLines_ne_nil content (List.length_eq_zero.mp hlen.symm)
    · intro t ht
      exact applyAdjAux_no_newline (splitLines_no_newline content) 0 t ht

theorem normLevels_chain (hs : List Heading) (e : Nat) :
    List.Chain' (fun a b => b.level ≤ a.level + 1) (normLevels e hs) ∧
      (∀ h0 t, normLevels e hs = h0 :: t → h0.level ≤ e + 1) := by
  induction hs generalizing e with
  | nil => exact ⟨by simp [normLevels], by intro h0 t h; cases h⟩
  | cons h rest ih =>
    by_cases hc : e + 1 < h.level
    · unfold normLevels
      rw [if_pos hc]
      refine ⟨?_, ?_⟩
      · rw [List.chain'_cons']
        refine ⟨?_, (ih (e + 1)).1⟩
        intro y hy
        rcases ht : normLevels (e + 1) rest with _ | ⟨h0, t⟩
        · rw [ht] at hy
          cases hy
        · rw [ht] at hy
          have := (ih (e + 1)).2 h0 t ht
          simp only [List.head?_cons, Option.mem_def, Option.some.injEq] at hy
          subst hy
          simpa using this
      · intro h0 t heq
        cases heq
        simp
    · unfold normLevels
      rw [if_neg hc]
      refine ⟨?_, ?_⟩
      · rw [List.chain'_cons']
        refine ⟨?_, (ih h.level).1⟩
        intro y hy
        rcases ht : normLevels h.level rest with _ | ⟨h0, t⟩
        · rw [ht] at hy
          cases hy
        · rw [ht] at hy
          have := (ih h.level).2 h0 t ht
          simp only [List.head?_cons, Option.mem_def, Option.some.injEq] at hy
          subst hy
          simpa using this
      · intro h0 t heq
        cases heq
        simp only
        omega

theorem normLevels_forall2 (hs : List Heading) (e : Nat)
    (hwf : ∀ h ∈ hs, 1 ≤ h.level) :
    List.Forall₂ (fun h h2 => 1 ≤ h2.level ∧ h2.level ≤ h.level ∧
      h2.text = h.text ∧ h2.line = h.line) hs (normLevels e hs) := by
  induction hs generalizing e with
  | nil => simp [normLevels]
  | cons h rest ih =>
    have hwfr : ∀ h2 ∈ rest, 1 ≤ h2.level := fun h2 hh2 => hwf h2 (by simp [hh2])
    by_cases hc : e + 1 < h.level
    · unfold normLevels
      rw [if_pos hc]
      exact List.Forall₂.cons ⟨by simp, by simp only; omega, rfl, rfl⟩ (ih (e + 1) hwfr)
    · unfold normLevels
      rw [if_neg hc]
      exact List.Forall₂.cons ⟨hwf h (by simp), by simp, rfl, rfl⟩ (ih h.level hwfr)

theorem normLevels_map_text (hs : List Heading) (e : Nat) :
    (normLevels e hs).map Heading.text = hs.map Heading.text := by
  induction hs generalizing e with
  | nil => simp [normLevels]
  | cons h rest ih =>
    by_cases hc : e + 1 < h.level
    · unfold normLevels
      rw [if_pos hc]
      simp [ih]
    · unfold normLevels
      rw [if_neg hc]
      simp [ih]

theorem normalizeLines_length (lines : List Line) :
    (normalizeLines lines).length = lines.length := by
  unfold normalizeLines
  by_cases he : (extractHeadings lines).isEmpty
  · rw [if_pos he]
  · rw [if_neg he]
    exact applyAdjAux_length _ lines 0

theorem applyAdjAux_getD_of_none (adj : List (Nat × Nat)) :
    ∀ (ls : List Line) (j i : Nat),
      reMatchHeading (ls.getD i []) = none →
      (applyAdjAux adj j ls).getD i [] = ls.getD i [] := by
  intro ls
  induction ls with
  | nil => intro j i _; simp [applyAdjAux]
  | cons line rest ih =>
    intro j i hm
    cases i with
    | zero =>
      simp only [List.getD_cons_zero] at hm ⊢
      show (match lookupNat j adj with
        | some lv => rewriteLine line lv
        | none => line) = line
      rcases hlk : lookupNat j adj with _ | lv
      · rfl
      · show rewriteLine line lv = line
        unfold rewriteLine
        rw [hm]
    | succ i2 =>
      simp only [List.getD_cons_succ] at hm ⊢
      exact ih (j + 1) i2 hm

theorem normalizeLines_getD_of_none (lines : List Line) (i : Nat)
    (hm : reMatchHeading (lines.getD i []) = none) :
    (normalizeLines lines).getD i [] = lines.getD i [] := by
  unfold normalizeLines
  by_cases he : (extractHeadings lines).isEmpty
  · rw [if_pos he]
  · rw [if_neg he]
    exact applyAdjAux_getD_of_none _ lines 0 i hm

theorem extractHeadingsAux_cons_none {line : Line} (hm : reMatchHeading line = none)
    (j : Nat) (rest : List Line) :
    extractHeadingsAux j (line :: rest) = extractHeadingsAux (j + 1) rest := by
  show (match reMatchHeading line with
    | some (k, g2) => (⟨k, pyStrip g2, j⟩ : Heading) :: extractHeadingsAux (j + 1) rest
    | none => extractHeadingsAux (j + 1) rest) = extractHeadingsAux (j + 1) rest
  rw [hm]

theorem extractHeadingsAux_cons_some {line : Line} {k : Nat} {g2 : Line}
    (hm : reMatchHeading line = some (k, g2)) (j : Nat) (rest : List Line) :
    extractHeadingsAux j (line :: rest)
      = ⟨k, pyStrip g2, j⟩ :: extractHeadingsAux (j + 1) rest := by
  show (match reMatchHeading line with
    | some (k, g2) => (⟨k, pyStrip g2, j⟩ : Heading) :: extractHeadingsAux (j + 1) rest
    | none => extractHeadingsAux (j + 1) rest)
    = ⟨k, pyStrip g2, j⟩ :: extractHeadingsAux (j + 1) rest
  rw [hm]

theorem extractHeadingsAux_exists_iff (ls : List Line) :
    ∀ (j i : Nat), i < ls.length →
      ((∃ hd ∈ extractHeadingsAux j ls, hd.line = j + i) ↔
        (reMatchHeading (ls.getD i [])).isSome = true) := by
  induction ls with
  | nil => intro j i hi; simp at hi
  | cons line rest ih =>
    intro j i hi
    cases i with
    | zero =>
      simp only [List.getD_cons_zero, Nat.add_zero]
      rcases hm : reMatchHeading line with _ | ⟨k, g2⟩
      · rw [extractHeadingsAux_cons_none hm]
        refine ⟨?_, ?_⟩
        · intro ⟨hd, hmem, hline⟩
          have hb := (extractHeadingsAux_mem_bounds hmem).1
          omega
        · intro hfalse
          simp at hfalse
      · rw [extractHeadingsAux_cons_some hm]
        refine ⟨fun _ => rfl, ?_⟩
        intro _
        exact ⟨⟨k, pyStrip g2, j⟩, by simp, rfl⟩
    | succ i2 =>
      have hi2 : i2 < rest.length := by
        have h3 : (line :: rest).length = rest.length + 1 := rfl
        omega
      simp only [List.getD_cons_succ]
      rw [← ih (j + 1) i2 hi2]
      rcases hm : reMatchHeading line with _ | ⟨k, g2⟩
      · rw [extractHeadingsAux_cons_none hm]
        constructor
        · intro ⟨hd, hmem, hline⟩
          exact ⟨hd, hmem, by omega⟩
        · intro ⟨hd, hmem, hline⟩
          exact ⟨hd, hmem, by omega⟩
      · rw [extractHeadingsAux_cons_some hm]
        constructor
        · intro ⟨hd, hmem, hline⟩
          rcases List.mem_cons.mp hmem with hmem | hmem
          · subst hmem
            dsimp only at hline
            omega
          · exact ⟨hd, hmem, by omega⟩
        · intro ⟨hd, hmem, hline⟩
          exact ⟨hd, List.mem_cons_of_mem _ hmem, by omega⟩

theorem claimHeadingLine_iff_guard (line : Line) :
    claimHeadingLine line ↔ headingGuard line = true := by
  constructor
  · intro ⟨k, mid, rest, h1, h6, hmid, hrest, hws, hline⟩
    rcases mid with _ | ⟨m0, ms⟩
    · exact absurd rfl hmid
    have hline2 : line = List.replicate k '#' ++ m0 :: (ms ++ rest) := by
      rw [hline]
      simp
    clear hline
    have hm0 : isPyWs m0 = true := hws m0 (by simp)
    have htw : line.takeWhile (fun c => c == '#') = List.replicate k '#' := by
      rw [hline2]
      apply takeWhile_hash_replicate_append k (m0 :: (ms ++ rest))
      intro c hc
      simp only [List.take_succ_cons, List.take_zero] at hc
      rcases List.mem_singleton.mp hc with rfl
      exact pyWs_ne_hash hm0
    have hhc : hashCount line = k := by
      unfold hashCount
      rw [htw]
      simp
    have hdrop : line.drop k = m0 :: (ms ++ rest) := by
      rw [hline2]
      have h0 := List.drop_left (List.replicate k '#') (m0 :: (ms ++ rest))
      rwa [List.length_replicate] at h0
    unfold headingGuard
    rw [hhc, hdrop]
    have hr1 : 1 ≤ rest.length := List.length_pos.mpr hrest
    simp only [Bool.and_eq_true, decide_eq_true_eq, List.headD_cons]
    refine ⟨⟨⟨h1, h6⟩, ?_⟩, hm0⟩
    simp only [List.length_cons, List.length_append]
    omega
  · intro hg
    unfold headingGuard at hg
    simp only [Bool.and_eq_true, decide_eq_true_eq] at hg
    obtain ⟨⟨⟨h1, h6⟩, hlen⟩, hws⟩ := hg
    rcases hr : line.drop (hashCount line) with _ | ⟨c, cs⟩
    · rw [hr] at hlen
      simp at hlen
    · have hcs : cs ≠ [] := by
        rw [hr] at hlen
        simp only [List.length_cons] at hlen
        intro e
        rw [e] at hlen
        simp at hlen
      have hc : isPyWs c = true := by
        rw [hr] at hws
        simpa using hws
      refine ⟨hashCount line, [c], cs, h1, h6, by simp, hcs, ?_, ?_⟩
      · intro c2 hc2
        rcases List.mem_singleton.mp hc2 with rfl
        exact hc
      · have := line_eq_hashes_append line
        rw [hr] at this
        simpa using this

theorem pyStrip_dropWhile (s : Line) : pyStrip (s.dropWhile isPyWs) = pyStrip s := by
  unfold pyStrip
  rw [dropWhile_idem]

/-- The trimmed text recorded for a heading equals the stripped remainder
of the raw line after the `#` run. -/
theorem reMatchHeading_text {line : Line} {k : Nat} {g2 : Line}
    (h : reMatchHeading line = some (k, g2)) :
    pyStrip g2 = pyStrip (line.drop k) := by
  obtain ⟨_, _, _, _, _, _, hshape⟩ := reMatchHeading_some h
  rcases hshape with ⟨hg, _⟩ | ⟨⟨c, _, hc, hg⟩, hdw⟩
  · rw [hg, pyStrip_dropWhile]
  · have hr : pyStrip (line.drop k) = [] := by
      unfold pyStrip
      rw [hdw]
      simp
    have hg2 : pyStrip g2 = [] := by
      rw [hg]
      unfold pyStrip
      rw [List.dropWhile_cons_of_pos hc]
      simp
    rw [hg2, hr]

/-- C1: in the text produced by hierarchy normalization, every adjacent
pair of headings satisfies `level[i+1] <= level[i] + 1`. -/
theorem claim_C1_no_level_jump (content : List Char) :
    List.Chain' (fun a b => b.level ≤ a.level + 1)
      (extractHeadings (splitLines (normalize_heading_hierarchy content))) := by
  rw [splitLines_normalize, extract_normalizeLines]
  exact (normLevels_chain _ 1).1

/-- C10: hierarchy normalization never deepens a heading: every normalized
level is at least 1 and at most the raw level. -/
theorem claim_C10_never_deepens (content : List Char) :
    List.Forall₂ (fun h h2 => 1 ≤ h2.level ∧ h2.level ≤ h.level)
      (extractHeadings (splitLines content))
      (extractHeadings (splitLines (normalize_heading_hierarchy content))) := by
  rw [splitLines_normalize, extract_normalizeLines]
  have h := normLevels_forall2 (extractHeadings (splitLines content)) 1
    (fun hd hh => (extractHeadings_level_wf hh).1)
  exact List.Forall₂.imp (fun a b hab => ⟨hab.1, hab.2.1⟩) h

/-- C2 (amended): hierarchy normalization preserves the ordered sequence of
trimmed heading texts, the number of lines, and every non-heading line;
heading lines themselves are rewritten to the new `#` run, a single space,
and the captured text, so surplus whitespace after the run is collapsed. -/
theorem claim_C2_text_preservation (content : List Char) :
    ((extractHeadings (splitLines (normalize_heading_hierarchy content))).map Heading.text
      = (extractHeadings (splitLines content)).map Heading.text)
    ∧ (splitLines (normalize_heading_hierarchy content)).length
      = (splitLines content).length
    ∧ ∀ i, reMatchHeading ((splitLines content).getD i []) = none →
        (splitLines (normalize_heading_hierarchy content)).getD i []
          = (splitLines content).getD i [] := by
  refine ⟨?_, ?_, ?_⟩
  · rw [splitLines_normalize, extract_normalizeLines]
    exact normLevels_map_text _ 1
  · rw [splitLines_normalize]
    exact normalizeLines_length _
  · intro i hm
    rw [splitLines_normalize]
    exact normalizeLines_getD_of_none _ i hm

/-- C2, counterexample to the claim as stated: the heading line `#  A`
keeps its level (1) under normalization, yet the rewritten line is `# A`:
the run of spaces after the `#` run is collapsed, so rewriting changes
more than the leading `#` run length. -/
theorem claim_C2_counterexample :
    normalize_heading_hierarchy (l "#  A") = l "# A" ∧ (l "# A" : Line) ≠ l "#  A" := by
  constructor
  · decide
  · decide

/-- C9: a line is recorded as a heading iff it consists of 1 to 6 leading
`#` characters, one or more whitespace characters, and a non-empty
remainder; the recorded level is the `#` count and the recorded text is
the trimmed remainder after the run; a document with no such line yields
the empty heading sequence. -/
theorem claim_C9_heading_extractor (content : List Char) :
    (∀ i, i < (splitLines content).length →
      (claimHeadingLine ((splitLines content).getD i []) ↔
        ∃ hd ∈ extractHeadings (splitLines content), hd.line = i))
    ∧ (∀ hd ∈ extractHeadings (splitLines content),
        hd.level = hashCount ((splitLines content).getD hd.line []) ∧
        hd.text = pyStrip (((splitLines content).getD hd.line []).drop hd.level))
    ∧ ((∀ i, i < (splitLines content).length →
        ¬ claimHeadingLine ((splitLines content).getD i [])) →
      extractHeadings (splitLines content) = []) := by
  have hiff : ∀ i, i < (splitLines content).length →
      (claimHeadingLine ((splitLines content).getD i []) ↔
        ∃ hd ∈ extractHeadings (splitLines content), hd.line = i) := by
    intro i hi
    rw [claimHeadingLine_iff_guard, ← reMatchHeading_isSome_iff]
    have h := extractHeadingsAux_exists_iff (splitLines content) 0 i hi
    simp only [Nat.zero_add] at h
    exact (h.symm : _)
  refine ⟨hiff, ?_, ?_⟩
  · intro hd hmem
    rcases extractHeadingsAux_mem_reMatch hmem with ⟨g2, hg, ht⟩
    simp only [Nat.sub_zero] at hg
    obtain ⟨hk, _, _, _, _, _, _⟩ := reMatchHeading_some hg
    exact ⟨hk, by rw [ht]; exact reMatchHeading_text hg⟩
  · intro hnone
    rcases he : extractHeadings (splitLines content) with _ | ⟨hd, hds⟩
    · rfl
    · have hmem : hd ∈ extractHeadings (splitLines content) := by
        rw [he]
        simp
      have hb := extractHeadingsAux_mem_bounds hmem
      simp only [Nat.zero_add, Nat.le_zero_eq] at hb
      have hlt : hd.line < (splitLines content).length := by
        have := hb.2
        omega
      have := (hiff hd.line hlt).mpr ⟨hd, hmem, rfl⟩
      exact absurd this (hnone hd.line hlt)

theorem pyWs_ne_dash {c : Char} (h : isPyWs c = true) : (c == '-') = false := by
  by_cases hc : c = '-'
  · subst hc
    exact absurd h (by decide)
  · simp [hc]

theorem dropWhile_append_singleton {p : Char → Bool} {c : Char} (xs : Line)
    (hc : p c = false) : (xs ++ [c]).dropWhile p = xs.dropWhile p ++ [c] := by
  induction xs with
  | nil => simp [List.dropWhile, hc]
  | cons a as ih =>
    by_cases ha : p a
    · simp only [List.cons_append, List.dropWhile_cons_of_pos ha]
      exact ih
    · simp [List.dropWhile_cons_of_neg ha]

theorem pyStrip_head {s : Line} {c : Char} {cs : Line}
    (h : s.dropWhile isPyWs = c :: cs) :
    pyStrip s = c :: (cs.reverse.dropWhile isPyWs).reverse := by
  have hc : isPyWs c = false := dropWhile_head_false h
  unfold pyStrip
  rw [h]
  have : (c :: cs).reverse = cs.reverse ++ [c] := by simp
  rw [this, dropWhile_append_singleton cs.reverse hc]
  simp

theorem pyStrip_nil_of_dropWhile_nil {s : Line} (h : s.dropWhile isPyWs = []) :
    pyStrip s = [] := by
  unfold pyStrip
  rw [h]
  simp

theorem dropWhile_of_strip_dash3 {line : Line} (h : pyStrip line = dash3) :
    ∃ u, line.dropWhile isPyWs = dash3 ++ u ∧ ∀ c ∈ u, isPyWs c = true := by
  have h2 : ((line.dropWhile isPyWs).reverse.dropWhile isPyWs).reverse = dash3 := h
  have h3 : (line.dropWhile isPyWs).reverse.dropWhile isPyWs = dash3 := by
    have := congrArg List.reverse h2
    simpa using this
  have h4 : (line.dropWhile isPyWs).reverse
      = (line.dropWhile isPyWs).reverse.takeWhile isPyWs ++ dash3 := by
    conv_lhs => rw [← List.takeWhile_append_dropWhile (p := isPyWs)
      (l := (line.dropWhile isPyWs).reverse)]
    rw [h3]
  refine ⟨((line.dropWhile isPyWs).reverse.takeWhile isPyWs).reverse, ?_, ?_⟩
  · have h5 := congrArg List.reverse h4
    simp only [List.reverse_reverse, List.reverse_append] at h5
    conv_lhs => rw [h5]
    simp [dash3]
  · intro c hc
    have hc2 : c ∈ (line.dropWhile isPyWs).reverse.takeWhile isPyWs :=
      List.mem_reverse.mp hc
    exact List.mem_takeWhile_imp hc2

theorem strip_dash3_isNoise {line : Line} (h : pyStrip line = dash3) :
    isNoise line = true := by
  rcases dropWhile_of_strip_dash3 h with ⟨u, hu, hws⟩
  have htw : (dash3 ++ u).takeWhile (fun c => c == '-') = dash3 := by
    show (('-' :: '-' :: '-' :: u).takeWhile (fun c => c == '-')) = dash3
    rcases u with _ | ⟨u0, us⟩
    · rfl
    · have hu0 : (u0 == '-') = false := pyWs_ne_dash (hws u0 (by simp))
      simp [List.takeWhile_cons, hu0, dash3]
  have hhr : isHrDash line = true := by
    unfold isHrDash
    rw [hu, htw]
    have hdrop : (dash3 ++ u).drop dash3.length = u := List.drop_left dash3 u
    rw [hdrop]
    refine (Bool.and_eq_true _ _).mpr ⟨by simp [dash3], ?_⟩
    rw [List.all_eq_true]
    exact hws
  unfold isNoise
  rw [hhr]
  rfl

theorem blank_not_noise {line : Line} (h : isBlankLine line = true) :
    isNoise line = false := by
  have hnil : line.dropWhile isPyWs = [] := by
    rcases hdw : line.dropWhile isPyWs with _ | ⟨c, cs⟩
    · rfl
    · have := pyStrip_head hdw
      unfold isBlankLine at h
      rw [this] at h
      simp at h
  unfold isNoise isHrDash isHrStar
  rw [hnil]
  rfl

theorem strip_dash3_not_blank {line : Line} (h : pyStrip line = dash3) :
    isBlankLine line = false := by
  unfold isBlankLine
  rw [h]
  rfl

theorem strip_dash3_no_heading {line : Line} (h : pyStrip line = dash3) :
    reMatchHeading line = none := by
  rcases hm : reMatchHeading line with _ | ⟨k, g2⟩
  · rfl
  · obtain ⟨hk, h1, _, _, _, _, _⟩ := reMatchHeading_some hm
    rcases hl : line with _ | ⟨c, cs⟩
    · rw [hl] at hk
      unfold hashCount at hk
      simp at hk
      omega
    · have hc : c = '#' := by
        rw [hl] at hk
        unfold hashCount at hk
        by_cases hc2 : (c == '#') = true
        · exact eq_of_beq hc2
        · rw [List.takeWhile_cons_of_neg (by simpa using hc2)] at hk
          simp at hk
          omega
      subst hc
      have hdw : line.dropWhile isPyWs = '#' :: cs := by
        rw [hl]
        exact List.dropWhile_cons_of_neg (by decide)
      have := pyStrip_head hdw
      rw [this] at h
      cases h

theorem removeNoiseAux_delim {line : Line} {count : Nat} (h : pyStrip line = dash3)
    (hc : count < 2) (inFm prevBlank : Bool) (rest : List Line) :
    removeNoiseAux inFm count prevBlank (line :: rest)
      = line :: removeNoiseAux (!inFm) (count + 1) false rest := by
  simp only [removeNoiseAux]
  rw [if_pos ⟨h, hc⟩]

theorem removeNoiseAux_skip {line : Line} {count : Nat} {inFm : Bool}
    (h : ¬(pyStrip line = dash3 ∧ count < 2)) (h2 : (!inFm && isNoise line) = true)
    (prevBlank : Bool) (rest : List Line) :
    removeNoiseAux inFm count prevBlank (line :: rest)
      = removeNoiseAux inFm (if pyStrip line = dash3 then count + 1 else count)
          prevBlank rest := by
  simp only [removeNoiseAux]
  rw [if_neg h, if_pos h2]

theorem removeNoiseAux_blankskip {line : Line} {count : Nat} {inFm prevBlank : Bool}
    (h : ¬(pyStrip line = dash3 ∧ count < 2)) (h2 : (!inFm && isNoise line) = false)
    (h3 : (isBlankLine line && prevBlank) = true) (rest : List Line) :
    removeNoiseAux inFm count prevBlank (line :: rest)
      = removeNoiseAux inFm (if pyStrip line = dash3 then count + 1 else count)
          prevBlank rest := by
  simp only [removeNoiseAux]
  rw [if_neg h, if_neg (by simp [h2]), if_pos h3]

theorem removeNoiseAux_keep {line : Line} {count : Nat} {inFm prevBlank : Bool}
    (h : ¬(pyStrip line = dash3 ∧ count < 2)) (h2 : (!inFm && isNoise line) = false)
    (h3 : (isBlankLine line && prevBlank) = false) (rest : List Line) :
    removeNoiseAux inFm count prevBlank (line :: rest)
      = line :: removeNoiseAux inFm (if pyStrip line = dash3 then count + 1 else count)
          (isBlankLine line) rest := by
  simp only [removeNoiseAux]
  rw [if_neg h, if_neg (by simp [h2]), if_neg (by simp [h3])]

theorem annotateFm_delim {line : Line} {count : Nat} (h : pyStrip line = dash3)
    (hc : count < 2) (inFm : Bool) (rest : List Line) :
    annotateFm count inFm (line :: rest)
      = (line, true) :: annotateFm (count + 1) (!inFm) rest := by
  simp only [annotateFm]
  rw [if_pos h, if_pos hc]

theorem annotateFm_delim2 {line : Line} {count : Nat} (h : pyStrip line = dash3)
    (hc : ¬ count < 2) (inFm : Bool) (rest : List Line) :
    annotateFm count inFm (line :: rest)
      = (line, inFm) :: annotateFm (count + 1) inFm rest := by
  simp only [annotateFm]
  rw [if_pos h, if_neg hc]

theorem annotateFm_plain {line : Line} (h : ¬ pyStrip line = dash3)
    (count : Nat) (inFm : Bool) (rest : List Line) :
    annotateFm count inFm (line :: rest)
      = (line, inFm) :: annotateFm count inFm rest := by
  simp only [annotateFm]
  rw [if_neg h]

theorem collapseBlanksAux_skip {line : Line} {prevBlank : Bool}
    (h : (isBlankLine line && prevBlank) = true) (rest : List Line) :
    collapseBlanksAux prevBlank (line :: rest) = collapseBlanksAux prevBlank rest := by
  simp only [collapseBlanksAux]
  rw [if_pos h]

theorem collapseBlanksAux_keep {line : Line} {prevBlank : Bool}
    (h : (isBlankLine line && prevBlank) = false) (rest : List Line) :
    collapseBlanksAux prevBlank (line :: rest)
      = line :: collapseBlanksAux (isBlankLine line) rest := by
  simp only [collapseBlanksAux]
  rw [if_neg (by simp [h])]

theorem filterKeep_cons_true {line : Line} {ex : Bool} (h : (ex || !(isNoise line)) = true)
    (rest : List (Line × Bool)) :
    ((line, ex) :: rest).filterMap (fun p => if p.2 || !(isNoise p.1) then some p.1 else none)
      = line :: rest.filterMap (fun p => if p.2 || !(isNoise p.1) then some p.1 else none) := by
  rw [List.filterMap_cons]
  dsimp only
  rw [if_pos h]

theorem filterKeep_cons_false {line : Line} {ex : Bool} (h : (ex || !(isNoise line)) = false)
    (rest : List (Line × Bool)) :
    ((line, ex) :: rest).filterMap (fun p => if p.2 || !(isNoise p.1) then some p.1 else none)
      = rest.filterMap (fun p => if p.2 || !(isNoise p.1) then some p.1 else none) := by
  rw [List.filterMap_cons]
  dsimp only
  rw [if_neg (by simp [h])]

/-- The single-pass loop of `remove_noise` equals the three-phase
reference decomposition, for every starting state. -/
theorem removeNoiseAux_eq_spec :
    ∀ (lines : List Line) (inFm : Bool) (count : Nat) (prevBlank : Bool),
      removeNoiseAux inFm count prevBlank lines
        = collapseBlanksAux prevBlank ((annotateFm count inFm lines).filterMap
            (fun p => if p.2 || !(isNoise p.1) then some p.1 else none)) := by
  intro lines
  induction lines with
  | nil => intro inFm count prevBlank; rfl
  | cons line rest ih =>
    intro inFm count prevBlank
    by_cases hd3 : pyStrip line = dash3
    · have hnb : isBlankLine line = false := strip_dash3_not_blank hd3
      have hnoise : isNoise line = true := strip_dash3_isNoise hd3
      by_cases hcnt : count < 2
      · rw [removeNoiseAux_delim hd3 hcnt, annotateFm_delim hd3 hcnt,
          filterKeep_cons_true (by simp) _,
          collapseBlanksAux_keep (by simp [hnb]), hnb, ih (!inFm) (count + 1) false]
      · cases hf : inFm
        · rw [removeNoiseAux_skip (fun h0 => hcnt h0.2) (by simp [hnoise]) prevBlank rest,
            if_pos hd3, annotateFm_delim2 hd3 hcnt,
            filterKeep_cons_false (by simp [hnoise]) _,
            ih false (count + 1) prevBlank]
        · rw [removeNoiseAux_keep (fun h0 => hcnt h0.2) (by simp) (by simp [hnb]) rest,
            if_pos hd3, annotateFm_delim2 hd3 hcnt,
            filterKeep_cons_true (by simp) _,
            collapseBlanksAux_keep (by simp [hnb]), hnb,
            ih true (count + 1) false]
    · have hne : ¬(pyStrip line = dash3 ∧ count < 2) := fun h0 => hd3 h0.1
      rw [annotateFm_plain hd3]
      cases hf : inFm
      · by_cases hns : isNoise line = true
        · rw [removeNoiseAux_skip hne (by simp [hns]) prevBlank rest, if_neg hd3,
            filterKeep_cons_false (by simp [hns]) _,
            ih false count prevBlank]
        · have hns2 : isNoise line = false := by
            cases hx : isNoise line
            · rfl
            · exact absurd hx hns
          by_cases hbl : (isBlankLine line && prevBlank) = true
          · rw [removeNoiseAux_blankskip hne (by simp [hns2]) hbl rest, if_neg hd3,
              filterKeep_cons_true (by simp [hns2]) _,
              collapseBlanksAux_skip hbl, ih false count prevBlank]
          · rw [removeNoiseAux_keep hne (by simp [hns2]) (by simpa using hbl) rest,
              if_neg hd3, filterKeep_cons_true (by simp [hns2]) _,
              collapseBlanksAux_keep (by simpa using hbl),
              ih false count (isBlankLine line)]
      · by_cases hbl : (isBlankLine line && prevBlank) = true
        · rw [removeNoiseAux_blankskip hne (by simp) hbl rest, if_neg hd3,
            filterKeep_cons_true (by simp) _,
            collapseBlanksAux_skip hbl, ih true count prevBlank]
        · rw [removeNoiseAux_keep hne (by simp) (by simpa using hbl) rest,
            if_neg hd3, filterKeep_cons_true (by simp) _,
            collapseBlanksAux_keep (by simpa using hbl),
            ih true count (isBlankLine line)]

/-- C5 helper: noise removal equals the reference decomposition. -/
theorem removeNoiseLines_eq_spec (lines : List Line) :
    removeNoiseLines lines = noiseSpecLines lines :=
  removeNoiseAux_eq_spec lines false 0 false

/-- C5 (amended): noise removal keeps the first two lines anywhere in the
document whose `strip()` is `---` (they toggle the front-matter state and
are retained regardless of position), exempts lines inside the toggled
region from the horizontal-rule patterns, removes every other
horizontal-rule line (including every `---`-only line after the second),
and collapses runs of blank lines; equivalently it coincides with the
three-phase reference decomposition `noiseSpecLines`. -/
theorem claim_C5_noise_characterization :
    (∀ lines : List Line, removeNoiseLines lines = noiseSpecLines lines) ∧
    (∀ content : List Char,
      remove_noise content = joinLines (noiseSpecLines (splitLines content))) := by
  refine ⟨removeNoiseLines_eq_spec, ?_⟩
  intro content
  unfold remove_noise
  rw [removeNoiseLines_eq_spec]

/-- C5, counterexample to the claim as stated: in the document with lines
`text`, `---` there is no leading front-matter block, yet the `---`-only
line is retained (it is treated as an opening delimiter wherever it
occurs), not removed. -/
theorem claim_C5_counterexample :
    removeNoiseLines [l "text", l "---"] = [l "text", l "---"]
      ∧ l "---" ∈ removeNoiseLines [l "text", l "---"] := by
  refine ⟨by decide, by decide⟩

/-- C4, counterexample to the claim as stated: in a document that is one
front-matter block containing a run of two blank lines, noise removal
collapses the run, so a line of the front-matter region does not appear
unchanged in the output (the blank count inside the region drops from 2
to 1). -/
theorem claim_C4_counterexample :
    removeNoiseLines [l "---", l "a", [], [], l "b", l "---"]
        = [l "---", l "a", [], l "b", l "---"]
      ∧ ([l "---", l "a", ([] : Line), ([] : Line), l "b", l "---"].count ([] : Line)) = 2
      ∧ ((removeNoiseLines [l "---", l "a", [], [], l "b", l "---"]).count ([] : Line)) = 1 := by
  refine ⟨by decide, by decide, by decide⟩

theorem getD_append_left (as bs : List Line) (j : Nat) (h : j < as.length) :
    (as ++ bs).getD j [] = as.getD j [] := by
  induction as generalizing j with
  | nil => simp at h
  | cons a as2 ih =>
    cases j with
    | zero => rfl
    | succ j2 =>
      simp only [List.cons_append, List.getD_cons_succ]
      exact ih j2 (by simpa using h)

theorem getD_append_at_length (as : List Line) (b : Line) (bs : List Line) :
    (as ++ b :: bs).getD as.length [] = b := by
  induction as with
  | nil => rfl
  | cons a as2 ih => simpa using ih

theorem getD_mem_of_lt (as : List Line) (j : Nat) (h : j < as.length) :
    as.getD j [] ∈ as := by
  induction as generalizing j with
  | nil => simp at h
  | cons a as2 ih =>
    cases j with
    | zero => simp
    | succ j2 =>
      simp only [List.getD_cons_succ]
      exact List.mem_cons_of_mem _ (ih j2 (by simpa using h))

/-- Passing through the open front-matter region: lines that do not close
the block are kept verbatim, except for the blank-run collapse, which the
hypotheses rule out. -/
theorem removeNoiseAux_fm_pass (inner : List Line) :
    ∀ (pb : Bool) (tail : List Line),
      (∀ x ∈ inner, pyStrip x ≠ dash3) →
      List.Chain' (fun a b => ¬(isBlankLine a = true ∧ isBlankLine b = true)) inner →
      (∀ y ∈ inner.take 1, ¬(pb = true ∧ isBlankLine y = true)) →
      ∃ pb2, removeNoiseAux true 1 pb (inner ++ tail)
        = inner ++ removeNoiseAux true 1 pb2 tail := by
  induction inner with
  | nil => intro pb tail _ _ _; exact ⟨pb, rfl⟩
  | cons x xs ih =>
    intro pb tail hnd hch hhead
    have hx : pyStrip x ≠ dash3 := hnd x (by simp)
    have hbl : (isBlankLine x && pb) = false := by
      cases hpb : pb
      · simp
      · subst hpb
        have hx2 : isBlankLine x = false := by
          cases hbx : isBlankLine x
          · rfl
          · exact absurd ⟨rfl, hbx⟩ (hhead x (by simp))
        simp [hx2]
    rw [List.cons_append,
      removeNoiseAux_keep (fun h0 => hx h0.1) (by simp) hbl (xs ++ tail),
      if_neg hx]
    have hch2 : List.Chain' (fun a b => ¬(isBlankLine a = true ∧ isBlankLine b = true)) xs :=
      hch.tail
    have hhead2 : ∀ y ∈ xs.take 1, ¬(isBlankLine x = true ∧ isBlankLine y = true) := by
      rcases xs with _ | ⟨y, ys⟩
      · simp
      · intro y2 hy2
        rcases List.mem_singleton.mp (by simpa using hy2) with rfl
        exact (List.chain'_cons.mp hch).1
    rcases ih (isBlankLine x) tail (fun y hy => hnd y (by simp [hy])) hch2
      (fun y hy h0 => hhead2 y hy ⟨h0.1, h0.2⟩) with ⟨pb2, hp⟩
    exact ⟨pb2, by rw [hp, List.cons_append]⟩

/-- C4 (amended): for a document beginning with a front-matter block, noise
removal keeps the region verbatim provided the region contains no further
`---`-stripped line and no run of consecutive blank lines (the blank-run
collapse does apply inside front matter), and hierarchy normalization
leaves every region line unchanged provided none of them matches the
heading regex (normalization does scan the region). -/
theorem claim_C4_frontmatter_region (content : List Char) (d1 d2 : Line)
    (inner rest : List Line)
    (hsplit : splitLines content = d1 :: inner ++ d2 :: rest)
    (h1 : pyStrip d1 = dash3) (h2 : pyStrip d2 = dash3)
    (hin : ∀ x ∈ inner, pyStrip x ≠ dash3 ∧ reMatchHeading x = none)
    (hch : List.Chain' (fun a b => ¬(isBlankLine a = true ∧ isBlankLine b = true)) inner) :
    (∀ i, i < inner.length + 2 →
      (splitLines (normalize_heading_hierarchy content)).getD i []
        = (splitLines content).getD i [])
    ∧ ∃ tail, removeNoiseLines (splitLines content) = d1 :: (inner ++ d2 :: tail) := by
  have hnone : ∀ i, i < inner.length + 2 →
      reMatchHeading ((splitLines content).getD i []) = none := by
    intro i hi
    rw [hsplit, List.cons_append]
    cases i with
    | zero => exact strip_dash3_no_heading h1
    | succ j =>
      simp only [List.getD_cons_succ]
      by_cases hj : j < inner.length
      · rw [getD_append_left inner (d2 :: rest) j hj]
        exact (hin _ (getD_mem_of_lt inner j hj)).2
      · have hj2 : j = inner.length := by omega
        subst hj2
        rw [getD_append_at_length]
        exact strip_dash3_no_heading h2
  refine ⟨?_, ?_⟩
  · intro i hi
    rw [splitLines_normalize]
    exact normalizeLines_getD_of_none _ i (hnone i hi)
  · rw [hsplit]
    unfold removeNoiseLines
    rw [List.cons_append]
    have hd1 := @removeNoiseAux_delim d1 0 h1 (by omega) false false (inner ++ d2 :: rest)
    simp only [Bool.not_false, Nat.zero_add] at hd1
    rw [hd1]
    rcases removeNoiseAux_fm_pass inner false (d2 :: rest)
        (fun x hx => (hin x hx).1) hch (by simp) with ⟨pb2, hp⟩
    have hd2 := @removeNoiseAux_delim d2 1 h2 (by omega) true pb2 rest
    simp only [Bool.not_true] at hd2
    rw [hp, hd2]
    exact ⟨removeNoiseAux false (1 + 1) false rest, by simp⟩

/-- Witness for C4 at the document `---`, `title: x`, `---`, `# B`. -/
theorem claim_C4_witness :
    (∀ i, i < ([l "title: x"] : List Line).length + 2 →
      (splitLines (normalize_heading_hierarchy (l "---\ntitle: x\n---\n# B"))).getD i []
        = (splitLines (l "---\ntitle: x\n---\n# B")).getD i [])
    ∧ ∃ tail, removeNoiseLines (splitLines (l "---\ntitle: x\n---\n# B"))
        = l "---" :: ([l "title: x"] ++ l "---" :: tail) :=
  claim_C4_frontmatter_region (l "---\ntitle: x\n---\n# B") (l "---") (l "---")
    [l "title: x"] [l "# B"] (by decide) (by decide) (by decide) (by decide)
    (List.chain'_singleton _)

theorem filter_line_filterMap (g : Heading → Option DiagOpp)
    (hg : ∀ h2 o, g h2 = some o → o.line = h2.line) :
    ∀ (hs : List Heading) (h : Heading), hs.Pairwise (fun a b => a.line < b.line) →
      h ∈ hs →
      (hs.filterMap g).filter (fun o => o.line == h.line) = (g h).toList := by
  intro hs
  induction hs with
  | nil => intro h _ hmem; simp at hmem
  | cons h0 rest ih =>
    intro h hp hmem
    have hp1 : ∀ b ∈ rest, h0.line < b.line := (List.pairwise_cons.mp hp).1
    have hp2 := (List.pairwise_cons.mp hp).2
    rcases List.mem_cons.mp hmem with hmem | hmem
    · subst hmem
      have hrest : (rest.filterMap g).filter (fun o => o.line == h.line) = [] := by
        rw [List.filter_eq_nil_iff]
        intro o ho
        rcases List.mem_filterMap.mp ho with ⟨h2, hh2, hgo⟩
        have : o.line = h2.line := hg h2 o hgo
        have hlt := hp1 h2 hh2
        simp only [beq_iff_eq]
        omega
      rcases hc : g h with _ | o
      · rw [List.filterMap_cons_none hc]
        rw [hrest]
        rfl
      · rw [List.filterMap_cons_some hc]
        have holine : o.line = h.line := hg h o hc
        rw [List.filter_cons_of_pos (by simp [holine])]
        rw [hrest]
        rfl
    · have hne : h0.line ≠ h.line := by
        have := hp1 h hmem
        omega
      rcases hc : g h0 with _ | o
      · rw [List.filterMap_cons_none hc]
        exact ih h hp2 hmem
      · rw [List.filterMap_cons_some hc]
        have holine : o.line = h0.line := hg h0 o hc
        rw [List.filter_cons_of_neg (by simp [holine, hne])]
        exact ih h hp2 hmem

/-- C6: every heading section receives at most one diagram suggestion,
chosen by the first matching indicator family in the fixed priority order
process > relationship > architecture; in particular a section matching a
process indicator is classified `flowchart` even if it also matches
architecture indicators, and a section matching no family contributes no
suggestion. -/
theorem claim_C6_diagram_priority (content : List Char) (h : Heading)
    (hmem : h ∈ extractHeadings (splitLines content)) :
    (identifyDiagramOpportunities (splitLines content)).filter
        (fun o => o.line == h.line)
      = (if process_indicators.any (fun ind => hasSub ind
            (sectionTextLower (splitLines content)
              (extractHeadings (splitLines content)) h.line))
          then [⟨h.text, DiagType.flowchart, h.line⟩]
        else if relationship_indicators.any (fun ind => hasSub ind
            (sectionTextLower (splitLines content)
              (extractHeadings (splitLines content)) h.line))
          then [⟨h.text, DiagType.graph, h.line⟩]
        else if architecture_indicators.any (fun ind => hasSub ind
            (sectionTextLower (splitLines content)
              (extractHeadings (splitLines content)) h.line))
          then [⟨h.text, DiagType.architecture, h.line⟩]
        else []) := by
  unfold identifyDiagramOpportunities
  rw [filter_line_filterMap _ (fun h2 o hgo => by
      rcases hc : classifySection (sectionTextLower (splitLines content)
          (extractHeadings (splitLines content)) h2.line) with _ | t
      · rw [hc] at hgo
        cases hgo
      · rw [hc] at hgo
        cases hgo
        rfl)
    (extractHeadings (splitLines content)) h (extractHeadingsAux_pairwise 0 _) hmem]
  unfold classifySection
  by_cases c1 : process_indicators.any (fun ind => hasSub ind
      (sectionTextLower (splitLines content)
        (extractHeadings (splitLines content)) h.line)) = true
  · simp [c1]
  · have c1f : process_indicators.any (fun ind => hasSub ind
        (sectionTextLower (splitLines content)
          (extractHeadings (splitLines content)) h.line)) = false := by
      simpa using c1
    by_cases c2 : relationship_indicators.any (fun ind => hasSub ind
        (sectionTextLower (splitLines content)
          (extractHeadings (splitLines content)) h.line)) = true
    · simp [c1f, c2]
    · have c2f : relationship_indicators.any (fun ind => hasSub ind
          (sectionTextLower (splitLines content)
            (extractHeadings (splitLines content)) h.line)) = false := by
        simpa using c2
      by_cases c3 : architecture_indicators.any (fun ind => hasSub ind
          (sectionTextLower (splitLines content)
            (extractHeadings (splitLines content)) h.line)) = true
      · simp [c1f, c2f, c3]
      · have c3f : architecture_indicators.any (fun ind => hasSub ind
            (sectionTextLower (splitLines content)
              (extractHeadings (splitLines content)) h.line)) = false := by
          simpa using c3
        simp [c1f, c2f, c3f]

/-- Witness for C6: the section of the single heading of
`# Step 1 then done` / `text` contains a process indicator and is
classified as a flowchart. -/
theorem claim_C6_witness :
    (identifyDiagramOpportunities (splitLines (l "# Step 1 then done\ntext"))).filter
        (fun o => o.line == (⟨1, l "Step 1 then done", 0⟩ : Heading).line)
      = [⟨l "Step 1 then done", DiagType.flowchart, 0⟩] :=
  (claim_C6_diagram_priority (l "# Step 1 then done\ntext")
    ⟨1, l "Step 1 then done", 0⟩ (by decide)).trans (by decide)

theorem insertDesc_perm (cnt : List Char → Nat) (x : List Char)
    (ls : List (List Char)) : (insertDesc cnt x ls).Perm (x :: ls) := by
  induction ls with
  | nil => exact List.Perm.refl _
  | cons y ys ih =>
    unfold insertDesc
    by_cases hc : cnt y ≤ cnt x
    · rw [if_pos hc]
    · rw [if_neg hc]
      exact (List.Perm.cons y ih).trans (List.Perm.swap x y ys)

theorem sortDesc_perm (cnt : List Char → Nat) (ls : List (List Char)) :
    (sortDesc cnt ls).Perm ls := by
  induction ls with
  | nil => exact List.Perm.refl _
  | cons x xs ih =>
    exact (insertDesc_perm cnt x (sortDesc cnt xs)).trans (List.Perm.cons x ih)

theorem insertDesc_pairwise (cnt idx : List Char → Nat) (x : List Char)
    (S : List (List Char))
    (hS : S.Pairwise (fun a b => cnt b < cnt a ∨ (cnt b = cnt a ∧ idx a < idx b)))
    (hidx : ∀ z ∈ S, idx x < idx z) :
    (insertDesc cnt x S).Pairwise
      (fun a b => cnt b < cnt a ∨ (cnt b = cnt a ∧ idx a < idx b)) := by
  induction S with
  | nil => simp [insertDesc]
  | cons y ys ih =>
    unfold insertDesc
    by_cases hc : cnt y ≤ cnt x
    · rw [if_pos hc]
      refine List.Pairwise.cons ?_ hS
      intro z hz
      rcases List.mem_cons.mp hz with hz | hz
      · subst hz
        rcases Nat.lt_or_ge (cnt z) (cnt x) with hlt | hge
        · exact Or.inl hlt
        · exact Or.inr ⟨Nat.le_antisymm hc hge, hidx z (by simp)⟩
      · have hyz := (List.pairwise_cons.mp hS).1 z hz
        have hzy : cnt z ≤ cnt y := by
          rcases hyz with hyz | hyz
          · omega
          · omega
        rcases Nat.lt_or_ge (cnt z) (cnt x) with hlt | hge
        · exact Or.inl hlt
        · exact Or.inr ⟨by omega, hidx z (by simp [hz])⟩
    · rw [if_neg hc]
      have hxy : cnt x < cnt y := Nat.lt_of_not_le hc
      refine List.Pairwise.cons ?_ (ih (List.pairwise_cons.mp hS).2
        (fun z hz => hidx z (by simp [hz])))
      intro z hz
      have hz2 := (insertDesc_perm cnt x ys).mem_iff.mp hz
      rcases List.mem_cons.mp hz2 with hz2 | hz2
      · subst hz2
        exact Or.inl hxy
      · exact (List.pairwise_cons.mp hS).1 z hz2

theorem sortDesc_pairwise (cnt idx : List Char → Nat) (ls : List (List Char))
    (hls : ls.Pairwise (fun a b => idx a < idx b)) :
    (sortDesc cnt ls).Pairwise
      (fun a b => cnt b < cnt a ∨ (cnt b = cnt a ∧ idx a < idx b)) := by
  induction ls with
  | nil => simp [sortDesc]
  | cons x xs ih =>
    unfold sortDesc
    refine insertDesc_pairwise cnt idx x (sortDesc cnt xs)
      (ih (List.pairwise_cons.mp hls).2) ?_
    intro z hz
    have hz2 := (sortDesc_perm cnt xs).mem_iff.mp hz
    exact (List.pairwise_cons.mp hls).1 z hz2

theorem dedupFirst_spec (ws : List (List Char)) :
    ∀ seen : List (List Char),
      (dedupFirst seen ws).Nodup ∧ ∀ z ∈ dedupFirst seen ws, z ∉ seen := by
  induction ws with
  | nil => intro seen; simp [dedupFirst]
  | cons x xs ih =>
    intro seen
    unfold dedupFirst
    by_cases hx : x ∈ seen
    · rw [if_pos hx]
      exact ih seen
    · rw [if_neg hx]
      refine ⟨?_, ?_⟩
      · refine List.Nodup.cons ?_ (ih (x :: seen)).1
        intro hmem
        exact (ih (x :: seen)).2 x hmem (by simp)
      · intro z hz
        rcases List.mem_cons.mp hz with hz | hz
        · subst hz
          exact hx
        · intro hzs
          exact (ih (x :: seen)).2 z hz (by simp [hzs])

theorem firstPos_lt_of_nodup (D : List (List Char)) (hD : D.Nodup) :
    D.Pairwise (fun a b => firstPos a D < firstPos b D) := by
  induction D with
  | nil => simp
  | cons x xs ih =>
    have hx : x ∉ xs := (List.nodup_cons.mp hD).1
    have hxs : xs.Nodup := (List.nodup_cons.mp hD).2
    refine List.Pairwise.cons ?_ ?_
    · intro b hb
      have hbx : x ≠ b := fun e => hx (e ▸ hb)
      rw [show firstPos x (x :: xs) = 0 from by simp [firstPos]]
      rw [show firstPos b (x :: xs) = firstPos b xs + 1 from by simp [firstPos, hbx]]
      omega
    · have hp := ih hxs
      refine List.Pairwise.imp_of_mem ?_ hp
      intro a b ha hb hab
      have hxa : x ≠ a := fun e => hx (e ▸ ha)
      have hxb : x ≠ b := fun e => hx (e ▸ hb)
      rw [show firstPos a (x :: xs) = firstPos a xs + 1 from by simp [firstPos, hxa]]
      rw [show firstPos b (x :: xs) = firstPos b xs + 1 from by simp [firstPos, hxb]]
      omega

/-- C7 (amended): `extract_key_concepts` returns the first 10 entries of a
permutation of the distinct tokens ordered by strictly descending count,
with ties between equal counts broken by first appearance in the
concatenated match list (all CamelCase matches in document order followed
by all acronym matches in document order) -- not by first appearance in
the document text. -/
theorem claim_C7_concept_ranking (content : List Char) :
    ∃ S : List (List Char),
      S.Perm (dedupFirst [] (extractWords content)) ∧
      S.Pairwise (fun a b =>
        (extractWords content).count b < (extractWords content).count a ∨
        ((extractWords content).count b = (extractWords content).count a ∧
          firstPos a (dedupFirst [] (extractWords content))
            < firstPos b (dedupFirst [] (extractWords content)))) ∧
      extract_key_concepts content = S.take 10 := by
  refine ⟨sortDesc (fun t => (extractWords content).count t)
    (dedupFirst [] (extractWords content)),
    sortDesc_perm _ _, ?_, rfl⟩
  exact sortDesc_pairwise _ _ _
    (firstPos_lt_of_nodup _ (dedupFirst_spec (extractWords content) []).1)

/-- C7, counterexample to the claim as stated: in the document `AB Cd`
the acronym `AB` appears first in the text (position 0, before `Cd` at
position 3) and both tokens occur once, yet the code lists `Cd` before
`AB`: the tie is broken by position in the concatenated match list (all
CamelCase matches before all acronym matches), not in the document. -/
theorem claim_C7_counterexample :
    scanCamel ((stripMdChars (l "AB Cd")).length + 1) false 0 (stripMdChars (l "AB Cd"))
        = [(3, l "Cd")]
      ∧ scanAcr ((stripMdChars (l "AB Cd")).length + 1) false 0 (stripMdChars (l "AB Cd"))
        = [(0, l "AB")]
      ∧ extract_key_concepts (l "AB Cd") = [l "Cd", l "AB"] := by
  refine ⟨by decide, by decide, by decide⟩

theorem isPrefixOf_nil_left (T : List Char) : ([] : List Char).isPrefixOf T = true := by
  cases T <;> rfl

theorem isPrefixOf_append_self (xs ys : List Char) : xs.isPrefixOf (xs ++ ys) = true := by
  induction xs with
  | nil => exact isPrefixOf_nil_left ys
  | cons a as ih => simp [List.isPrefixOf, ih]

theorem findOcc_cons_pos {sep : List Char} {c : Char} {rest : List Char}
    (h : sep.isPrefixOf (c :: rest) = true) :
    findOcc sep (c :: rest) = some ([], (c :: rest).drop sep.length) := by
  show (if sep.isPrefixOf (c :: rest) = true then some (([] : List Char), (c :: rest).drop sep.length)
    else (findOcc sep rest).map (fun q => (c :: q.1, q.2)))
    = some ([], (c :: rest).drop sep.length)
  rw [if_pos h]

theorem findOcc_cons_neg {sep : List Char} {c : Char} {rest : List Char}
    (h : sep.isPrefixOf (c :: rest) = false) :
    findOcc sep (c :: rest) = (findOcc sep rest).map (fun q => (c :: q.1, q.2)) := by
  show (if sep.isPrefixOf (c :: rest) = true then some (([] : List Char), (c :: rest).drop sep.length)
    else (findOcc sep rest).map (fun q => (c :: q.1, q.2)))
    = (findOcc sep rest).map (fun q => (c :: q.1, q.2))
  rw [if_neg (by simp [h])]

/-- The first `---` occurrence in `A ++ --- ++ B` is at the boundary when
`A` contains no `---` and does not end in a dash. -/
theorem findOcc_boundary : ∀ (A B : List Char),
    hasSub dash3 A = false → A.getLast? ≠ some '-' →
    findOcc dash3 (A ++ (dash3 ++ B)) = some (A, B) := by
  intro A
  induction A with
  | nil =>
    intro B _ _
    have hp : dash3.isPrefixOf ('-' :: '-' :: '-' :: B) = true :=
      isPrefixOf_append_self dash3 B
    show findOcc dash3 ('-' :: '-' :: '-' :: B) = some ([], B)
    rw [findOcc_cons_pos hp]
    rfl
  | cons a as ih =>
    intro B hA hlast
    have hnp : dash3.isPrefixOf (a :: (as ++ (dash3 ++ B))) = false := by
      rcases as with _ | ⟨a2, as2⟩
      · have ha : a ≠ '-' := by
          intro e
          exact hlast (by rw [e]; rfl)
        show dash3.isPrefixOf (a :: '-' :: '-' :: '-' :: B) = false
        simp [dash3, List.isPrefixOf, Ne.symm ha]
      · rcases as2 with _ | ⟨a3, as3⟩
        · have ha2 : a2 ≠ '-' := by
            intro e
            exact hlast (by rw [e]; rfl)
          show dash3.isPrefixOf (a :: a2 :: '-' :: '-' :: '-' :: B) = false
          simp [dash3, List.isPrefixOf, Ne.symm ha2]
        · have hA2 : (dash3.isPrefixOf (a :: a2 :: a3 :: as3)
              || hasSub dash3 (a2 :: a3 :: as3)) = false := hA
          have hpre := (Bool.or_eq_false_iff.mp hA2).1
          show dash3.isPrefixOf (a :: a2 :: a3 :: (as3 ++ (dash3 ++ B))) = false
          simp only [dash3, List.isPrefixOf, isPrefixOf_nil_left, Bool.and_true] at hpre ⊢
          exact hpre
    rw [show (a :: as) ++ (dash3 ++ B) = a :: (as ++ (dash3 ++ B)) from rfl,
      findOcc_cons_neg hnp]
    have has : hasSub dash3 as = false := by
      have hA2 : (dash3.isPrefixOf (a :: as) || hasSub dash3 as) = false := hA
      exact (Bool.or_eq_false_iff.mp hA2).2
    have hlast2 : as.getLast? ≠ some '-' := by
      rcases as with _ | ⟨a2, as2⟩
      · simp
      · rw [show (a :: a2 :: as2).getLast? = (a2 :: as2).getLast?
          from List.getLast?_cons_cons] at hlast
        exact hlast
    rw [ih B has hlast2]
    rfl

/-- C3 (amended): step 3 of `optimize` removes everything up to the second
occurrence of the substring `---`.  When the cleaned text is a
front-matter block whose interior contains no `---` occurrence and does
not end in a dash, the whole pre-existing block (and exactly it) is
discarded, and the retained body is the rest stripped of leading
newlines; when the interior does contain `---` (for example a generated
title embeds it), the split cuts early and old front-matter lines leak
into the body. -/
theorem claim_C3_strip_frontmatter (A B : List Char)
    (hA : hasSub dash3 A = false) (hlast : A.getLast? ≠ some '-') :
    stripExistingFm (dash3 ++ (A ++ (dash3 ++ B)))
      = B.dropWhile (fun c => c == '\n') := by
  unfold stripExistingFm
  rw [if_pos (isPrefixOf_append_self dash3 _)]
  have h1 : splitSub 2 dash3 (dash3 ++ (A ++ (dash3 ++ B)))
      = [] :: splitSub 1 dash3 (A ++ (dash3 ++ B)) := by
    show (match findOcc dash3 (dash3 ++ (A ++ (dash3 ++ B))) with
      | none => [dash3 ++ (A ++ (dash3 ++ B))]
      | some q => q.1 :: splitSub 1 dash3 q.2)
      = [] :: splitSub 1 dash3 (A ++ (dash3 ++ B))
    have hp : dash3.isPrefixOf ('-' :: '-' :: '-' :: (A ++ (dash3 ++ B))) = true :=
      isPrefixOf_append_self dash3 (A ++ (dash3 ++ B))
    rw [show dash3 ++ (A ++ (dash3 ++ B)) = '-' :: ('-' :: '-' :: (A ++ (dash3 ++ B)))
        from rfl,
      findOcc_cons_pos hp]
    rfl
  have h2 : splitSub 1 dash3 (A ++ (dash3 ++ B)) = [A, B] := by
    show (match findOcc dash3 (A ++ (dash3 ++ B)) with
      | none => [A ++ (dash3 ++ B)]
      | some q => q.1 :: splitSub 0 dash3 q.2)
      = [A, B]
    rw [findOcc_boundary A B hA hlast]
    rfl
  rw [h1, h2]
  rfl

/-- Witness for C3 at a front-matter block with interior
newline-title-newline and body `body`. -/
theorem claim_C3_witness :
    stripExistingFm (dash3 ++ (l "\ntitle: t\n" ++ (dash3 ++ l "\nbody")))
      = (l "\nbody").dropWhile (fun c => c == '\n') :=
  claim_C3_strip_frontmatter (l "\ntitle: t\n") (l "\nbody") (by decide) (by decide)

/-- C3, counterexample to the claim as stated: running `optimize` twice on
`# A---B` (whose generated title contains `---`) yields an output with
three `---` lines and two `optimized_for_llm: true` lines: the second
run's step 3 split on `---` cut inside the title, so the first run's
front-matter block was not discarded entirely and its metadata lines leak
into the body. -/
theorem claim_C3_counterexample :
    ((splitLines (optimize (optimize (l "# A---B") []) [])).count (l "---")) = 3
      ∧ ((splitLines (optimize (optimize (l "# A---B") []) [])).count
          (l "optimized_for_llm: true")) = 2 := by
  refine ⟨by decide, by decide⟩

/-- C8 (amended): when the final cleaned body has zero headings, the
synthesized front matter contains no `toc` field and no
`suggested_diagrams` field (the blocks are omitted entirely), the title
falls back to the stem of the caller-supplied path, or to `Untitled` when
the path is empty, and the pipeline output is that front matter, one blank
line, and the body. -/
theorem claim_C8_no_headings (content sourcePath : List Char)
    (h : extractHeadings (splitLines (pipelineBody content)) = []) :
    optimize content sourcePath
      = joinLines (generate_frontmatter (pipelineBody content) sourcePath)
        ++ l "\n\n" ++ pipelineBody content
    ∧ generate_frontmatter (pipelineBody content) sourcePath
      = [l "---",
          l "title: \"" ++ (if sourcePath.isEmpty then l "Untitled"
            else pyStem sourcePath) ++ l "\"",
          l "tokens: " ++ natToChars ((pipelineBody content).length / 4),
          l "optimized_for_llm: true"]
        ++ (if (extract_key_concepts (pipelineBody content)).isEmpty then []
            else l "concepts:" ::
              ((extract_key_concepts (pipelineBody content)).take 5).map
                (fun c => l "  - " ++ c))
        ++ [l "---"] := by
  refine ⟨rfl, ?_⟩
  unfold generate_frontmatter generate_toc identifyDiagramOpportunities
  rw [h]
  simp

/-- Witness for C8: the document `hello` has no headings anywhere in the
pipeline; its front matter has no toc and no diagram block and takes its
title from the path stem `guide`. -/
theorem claim_C8_witness :
    optimize (l "hello") (l "docs/guide.md")
      = joinLines (generate_frontmatter (pipelineBody (l "hello")) (l "docs/guide.md"))
        ++ l "\n\n" ++ pipelineBody (l "hello")
    ∧ generate_frontmatter (pipelineBody (l "hello")) (l "docs/guide.md")
      = [l "---",
          l "title: \"" ++ (if (l "docs/guide.md").isEmpty then l "Untitled"
            else pyStem (l "docs/guide.md")) ++ l "\"",
          l "tokens: " ++ natToChars ((pipelineBody (l "hello")).length / 4),
          l "optimized_for_llm: true"]
        ++ (if (extract_key_concepts (pipelineBody (l "hello"))).isEmpty then []
            else l "concepts:" ::
              ((extract_key_concepts (pipelineBody (l "hello"))).take 5).map
                (fun c => l "  - " ++ c))
        ++ [l "---"] :=
  claim_C8_no_headings (l "hello") (l "docs/guide.md") (by decide)

/-- C8, counterexample to the claim as stated: the document with lines
`---`, `x`, `---# yo` has zero headings, but step 3's substring split
turns its last line into the heading `# yo`, so the pipeline emits a
`toc` field for a zero-heading input document. -/
theorem claim_C8_counterexample :
    extractHeadings (splitLines (l "---\nx\n---# yo")) = []
      ∧ l "toc:" ∈ splitLines (optimize (l "---\nx\n---# yo") []) := by
  refine ⟨by decide, by decide⟩

end MdOpt
